import Mathlib

/-
Verification development for the airbnb-market-analysis repository.

The repository consists of three Python programs over pandas DataFrames:
`clean_airbnb.py` (the cleaner), `eda_airbnb.py` (the batch reporter) and
`app.py` (the Streamlit dashboard).  This file gives a shallow embedding of
the tabular data model and of each operation the specification claims are
about, and proves or refutes those claims.

Modelling conventions:
* a DataFrame is a `Table`: a list of column names plus row-major cells;
* a cell is `na` (NaN/NaT/None), a rational number (the exact value of a
  Python float — floats are dyadic rationals, so every float value is a
  rational with a finite decimal expansion; IEEE infinities are outside the
  model and NaN is represented by `na`), a string, or a date;
* operations that can raise a Python exception (KeyError on a missing
  column, TypeError on comparing strings with numbers, AssertionError) are
  embedded in `Except String`;
* `pd.to_numeric(errors="coerce")` is modelled by an exact decimal parser
  accepting an optional sign, digits with an optional decimal point, an
  optional exponent part, and the special string "nan" (case-insensitive),
  surrounded by optional ASCII whitespace; `str()` of a float is modelled
  by the exact decimal rendering of the rational value.
-/

namespace Airbnb

set_option maxRecDepth 100000

/-- A single cell of a DataFrame column. -/
inductive Cell where
  | na : Cell
  | num (q : Rat) : Cell
  | str (s : String) : Cell
  | date (d : Int) : Cell
deriving DecidableEq, Repr

/-- A DataFrame: a header of column names and row-major cells.  Rows are
expected to have one cell per header entry; a missing position reads as
`na`. -/
structure Table where
  header : List String
  rows : List (List Cell)
deriving DecidableEq, Repr

/-- Index of the first column with the given name, like positional lookup of
a label in `df.columns`. -/
def colIdx? : List String → String → Option Nat
  | [], _ => none
  | c :: rest, name => if c = name then some 0 else (colIdx? rest name).map (· + 1)

/-- Cell of a row at column position `j` (missing positions read as `na`). -/
def cellAt (r : List Cell) (j : Nat) : Cell := r.getD j Cell.na

theorem colIdx?_isSome {h : List String} {name : String} :
    (colIdx? h name).isSome ↔ name ∈ h := by
  induction h with
  | nil => simp [colIdx?]
  | cons c rest ih =>
      by_cases hc : c = name
      · subst hc; simp [colIdx?]
      · simp [colIdx?, hc, Option.isSome_map, ih, Ne.symm hc]

theorem colIdx?_mem {h : List String} {name : String} (hm : name ∈ h) :
    ∃ j, colIdx? h name = some j := by
  have := colIdx?_isSome.mpr hm
  exact Option.isSome_iff_exists.mp this

/-! ### Character utilities (ASCII model of Python string operations) -/

/-- ASCII whitespace characters (space, tab, newline, carriage return,
vertical tab, form feed), as recognised by Python `str.strip` and the `\s`
regex class (restricted to ASCII). -/
def isPySpace (c : Char) : Bool :=
  c.toNat = 32 || c.toNat = 9 || c.toNat = 10 || c.toNat = 13 ||
  c.toNat = 11 || c.toNat = 12

/-- ASCII decimal digit test. -/
def isDigitCh (c : Char) : Bool := 48 ≤ c.toNat && c.toNat ≤ 57

/-- Numeric value of an ASCII digit character. -/
def digitVal (c : Char) : Nat := c.toNat - 48

/-- ASCII lower-casing of one character, as in Python `str.lower` (restricted
to ASCII letters). -/
def pyLower (c : Char) : Char :=
  if 65 ≤ c.toNat && c.toNat ≤ 90 then Char.ofNat (c.toNat + 32) else c

/-- Python `str.strip()`: drop leading and trailing whitespace. -/
def pyStripList (l : List Char) : List Char :=
  ((l.dropWhile isPySpace).reverse.dropWhile isPySpace).reverse

/-- Replace each maximal run of whitespace by a single underscore, the effect
of `str.replace(r"\s+", "_", regex=True)`. -/
def collapseWsAux : Bool → List Char → List Char
  | _, [] => []
  | inRun, c :: rest =>
      if isPySpace c then
        if inRun then collapseWsAux true rest else '_' :: collapseWsAux true rest
      else c :: collapseWsAux false rest

/-- Replace each maximal run of whitespace by a single underscore. -/
def collapseWs (l : List Char) : List Char := collapseWsAux false l

theorem collapseWsAux_true : ∀ l : List Char,
    collapseWsAux true l = collapseWsAux false (l.dropWhile isPySpace) := by
  intro l
  induction l with
  | nil => rfl
  | cons c rest ih =>
      by_cases hc : isPySpace c = true
      · rw [List.dropWhile_cons_of_pos hc]
        simp only [collapseWsAux, if_pos hc, if_pos rfl]
        exact ih
      · rw [List.dropWhile_cons_of_neg (by simp [hc])]
        simp only [collapseWsAux, if_neg hc]

/-- The recursion equation of `collapseWs` on a cons cell. -/
theorem collapseWs_cons (c : Char) (rest : List Char) :
    collapseWs (c :: rest) =
      if isPySpace c then '_' :: collapseWs (rest.dropWhile isPySpace)
      else c :: collapseWs rest := by
  by_cases hc : isPySpace c = true
  · simp only [collapseWs, collapseWsAux, if_pos hc, Bool.false_eq_true, if_false]
    rw [collapseWsAux_true]
  · simp only [collapseWs, collapseWsAux, if_neg hc]

/-- Header normalisation from `normalize_columns` in clean_airbnb.py:
strip, lower-case, then collapse internal whitespace runs to underscores. -/
def normName (s : String) : String :=
  String.mk (collapseWs ((pyStripList s.data).map pyLower))

/-! ### Exact rational arithmetic helpers

The embedding computes rational arithmetic through `Rat.divInt` on explicit
numerators and denominators; each helper is proved equal to the
corresponding field operation, which the algebraic lemmas below use. -/

/-- Rational addition on explicit numerator/denominator form. -/
def rAdd (a b : Rat) : Rat := Rat.divInt (a.num * b.den + b.num * a.den) (a.den * b.den)

/-- Rational subtraction on explicit numerator/denominator form. -/
def rSub (a b : Rat) : Rat := Rat.divInt (a.num * b.den - b.num * a.den) (a.den * b.den)

/-- Rational multiplication on explicit numerator/denominator form. -/
def rMul (a b : Rat) : Rat := Rat.divInt (a.num * b.num) (a.den * b.den)

/-- Rational division on explicit numerator/denominator form. -/
def rDiv (a b : Rat) : Rat := Rat.divInt (a.num * b.den) (b.num * a.den)

/-- Sum of a list of rationals. -/
def rSum (l : List Rat) : Rat := l.foldr rAdd 0

theorem rAdd_eq (a b : Rat) : rAdd a b = a + b := by
  unfold rAdd
  rw [Rat.divInt_eq_div]
  push_cast
  conv_rhs => rw [← Rat.num_div_den a, ← Rat.num_div_den b]
  rw [div_add_div _ _ (by positivity) (by positivity)]
  ring_nf

theorem rSub_eq (a b : Rat) : rSub a b = a - b := by
  unfold rSub
  rw [Rat.divInt_eq_div]
  push_cast
  conv_rhs => rw [← Rat.num_div_den a, ← Rat.num_div_den b]
  rw [div_sub_div _ _ (by positivity) (by positivity)]
  ring_nf

theorem rMul_eq (a b : Rat) : rMul a b = a * b := by
  unfold rMul
  rw [Rat.divInt_eq_div]
  push_cast
  conv_rhs => rw [← Rat.num_div_den a, ← Rat.num_div_den b]
  rw [div_mul_div_comm]

theorem rDiv_eq (a b : Rat) : rDiv a b = a / b := by
  unfold rDiv
  rw [Rat.divInt_eq_div]
  push_cast
  conv_rhs => rw [← Rat.num_div_den a, ← Rat.num_div_den b]
  rw [div_div_div_comm]
  ring_nf
  rw [inv_inv]
  ring

theorem rSum_eq (l : List Rat) : rSum l = l.sum := by
  induction l with
  | nil => rfl
  | cons x xs ih => simp [rSum, List.foldr] at ih ⊢; rw [rAdd_eq, ih]

/-! ### Decimal numeral parsing, modelling pd.to_numeric(errors="coerce") -/

/-- Value of a digit string read most-significant first. -/
def digitsVal (l : List Char) : Nat := l.foldl (fun a c => a * 10 + digitVal c) 0

/-- The rational `i + f / 10 ^ L`, the value of the decimal numeral with
integer digits worth `i` and `L` fractional digits worth `f`. -/
def decFrac (i f L : Nat) : Rat := Rat.divInt (i * 10 ^ L + f) (10 ^ L)

/-- The rational `q * 10 ^ k` for an integer exponent `k`. -/
def mulPow10 (q : Rat) (k : Int) : Rat :=
  if 0 ≤ k then Rat.divInt (q.num * 10 ^ k.toNat) q.den
  else Rat.divInt q.num (q.den * 10 ^ (-k).toNat)

/-- The rational `s * q`, used to apply a parsed sign `s = ±1`. -/
def applySign (s : Int) (q : Rat) : Rat := Rat.divInt (s * q.num) q.den

theorem decFrac_eq (i f L : Nat) :
    decFrac i f L = (i : Rat) + (f : Rat) / (10 : Rat) ^ L := by
  unfold decFrac
  rw [Rat.divInt_eq_div]
  push_cast
  rw [add_div]
  congr 1
  rw [mul_div_assoc, div_self (by positivity), mul_one]

theorem mulPow10_eq (q : Rat) (k : Int) : mulPow10 q k = q * (10 : Rat) ^ k := by
  unfold mulPow10
  by_cases hk : 0 ≤ k
  · rw [if_pos hk, Rat.divInt_eq_div]
    push_cast
    rw [← zpow_natCast (10 : Rat) k.toNat, Int.toNat_of_nonneg hk]
    conv_rhs => rw [← Rat.num_div_den q]
    ring
  · rw [if_neg hk, Rat.divInt_eq_div]
    push_cast
    have hk2 : k = -((-k).toNat : Int) := by omega
    conv_rhs => rw [← Rat.num_div_den q, hk2]
    rw [zpow_neg, zpow_natCast]
    ring

theorem applySign_eq (s : Int) (q : Rat) : applySign s q = (s : Rat) * q := by
  unfold applySign
  rw [Rat.divInt_eq_div]
  push_cast
  rw [mul_div_assoc, Rat.num_div_den]

/-- Split a mantissa from an optional exponent part at the first `e`/`E`. -/
def splitExp (l : List Char) : List Char × Option (List Char) :=
  let m := l.takeWhile (fun c => !(c = 'e' || c = 'E'))
  match l.dropWhile (fun c => !(c = 'e' || c = 'E')) with
  | [] => (m, none)
  | _ :: rest => (m, some rest)

/-- Parse an unsigned decimal mantissa: digits with an optional decimal
point, at least one digit in total. -/
def parseMantissa (l : List Char) : Option Rat :=
  let ip := l.takeWhile isDigitCh
  match l.dropWhile isDigitCh with
  | [] => if ip.isEmpty then none else some (digitsVal ip)
  | c :: fp =>
      if c = '.' then
        if fp.all isDigitCh && !(ip.isEmpty && fp.isEmpty) then
          some (decFrac (digitsVal ip) (digitsVal fp) fp.length)
        else none
      else none

/-- Parse a signed exponent: optional sign then at least one digit. -/
def parseExp (l : List Char) : Option Int :=
  match l with
  | [] => none
  | c :: r =>
      if c = '+' then (if !r.isEmpty && r.all isDigitCh then some (digitsVal r) else none)
      else if c = '-' then
        (if !r.isEmpty && r.all isDigitCh then some (-(digitsVal r : Int)) else none)
      else if (c :: r).all isDigitCh then some (digitsVal (c :: r)) else none

/-- Parse an unsigned float literal (mantissa with optional exponent). -/
def parseFloatCore (l : List Char) : Option Rat :=
  match splitExp l with
  | (m, none) => parseMantissa m
  | (m, some el) =>
      match parseMantissa m, parseExp el with
      | some q, some k => some (mulPow10 q k)
      | _, _ => none

/-- Result of `pd.to_numeric(x, errors="coerce")` on one string cell: strip
surrounding whitespace, read an optional sign, accept "nan" (any case) as
missing, otherwise parse a float literal; anything unparsable coerces to
missing. -/
def toNumericCell (s : String) : Cell :=
  let l := pyStripList s.data
  let signCore : Int × List Char :=
    match l with
    | [] => (1, [])
    | c :: r => if c = '+' then (1, r) else if c = '-' then (-1, r) else (1, c :: r)
  let sgn := signCore.1
  let core := signCore.2
  if core.map pyLower = "nan".data then Cell.na
  else
    match parseFloatCore core with
    | some q => Cell.num (applySign sgn q)
    | none => Cell.na

/-! ### Decimal rendering, modelling str() of a float value -/

/-- Fuel-driven digit extraction; `fuel ≥ n` suffices for every digit. -/
def natDigitsRevAux : Nat → Nat → List Char
  | 0, _ => []
  | fuel + 1, n =>
      if n = 0 then [] else Char.ofNat (48 + n % 10) :: natDigitsRevAux fuel (n / 10)

/-- Digits of `n`, least significant first (empty for 0). -/
def natDigitsRev (n : Nat) : List Char := natDigitsRevAux n n

theorem natDigitsRevAux_zero : ∀ fuel, natDigitsRevAux fuel 0 = [] := by
  intro fuel
  cases fuel with
  | zero => rfl
  | succ f => simp [natDigitsRevAux]

theorem natDigitsRevAux_congr : ∀ f1 f2 n : Nat, n ≤ f1 → n ≤ f2 →
    natDigitsRevAux f1 n = natDigitsRevAux f2 n := by
  intro f1
  induction f1 with
  | zero =>
      intro f2 n h1 _
      have : n = 0 := Nat.le_zero.mp h1
      subst this
      rw [natDigitsRevAux_zero, natDigitsRevAux_zero]
  | succ f ih =>
      intro f2 n h1 h2
      by_cases hn : n = 0
      · subst hn
        rw [natDigitsRevAux_zero, natDigitsRevAux_zero]
      · have hpos : 0 < n := Nat.pos_of_ne_zero hn
        obtain ⟨f2', rfl⟩ : ∃ f2', f2 = f2' + 1 :=
          ⟨f2 - 1, by omega⟩
        have hdiv : n / 10 < n := Nat.div_lt_self hpos (by norm_num)
        simp only [natDigitsRevAux, if_neg hn]
        rw [ih f2' (n / 10) (by omega) (by omega)]

/-- The recursion equation of `natDigitsRev`. -/
theorem natDigitsRev_eq (n : Nat) :
    natDigitsRev n =
      if n = 0 then [] else Char.ofNat (48 + n % 10) :: natDigitsRev (n / 10) := by
  by_cases hn : n = 0
  · subst hn; rfl
  · have hpos : 0 < n := Nat.pos_of_ne_zero hn
    obtain ⟨m, rfl⟩ : ∃ m, n = m + 1 := ⟨n - 1, by omega⟩
    have hdiv : (m + 1) / 10 < m + 1 := Nat.div_lt_self hpos (by norm_num)
    simp only [natDigitsRev, natDigitsRevAux, if_neg hn]
    rw [natDigitsRevAux_congr m ((m + 1) / 10) ((m + 1) / 10) (by omega) (by omega)]

/-- Decimal digits of `n`, most significant first. -/
def natDigits (n : Nat) : List Char :=
  if n = 0 then ['0'] else (natDigitsRev n).reverse

/-- Fuel-driven multiplicity count; `fuel ≥ n` suffices. -/
def maxPowAux : Nat → Nat → Nat → Nat
  | 0, _, _ => 0
  | fuel + 1, p, n =>
      if 2 ≤ p ∧ 0 < n ∧ n % p = 0 then 1 + maxPowAux fuel p (n / p) else 0

/-- Largest `e` with `p ^ e ∣ n` (for `2 ≤ p`, `0 < n`; 0 otherwise). -/
def maxPow (p n : Nat) : Nat := maxPowAux n p n

/-- Fuel-driven cofactor extraction; `fuel ≥ n` suffices. -/
def remPowAux : Nat → Nat → Nat → Nat
  | 0, _, n => n
  | fuel + 1, p, n =>
      if 2 ≤ p ∧ 0 < n ∧ n % p = 0 then remPowAux fuel p (n / p) else n

/-- Cofactor left after removing all factors `p` from `n`. -/
def remPow (p n : Nat) : Nat := remPowAux n p n

theorem maxPowAux_congr : ∀ f1 f2 p n : Nat, n ≤ f1 → n ≤ f2 →
    maxPowAux f1 p n = maxPowAux f2 p n := by
  intro f1
  induction f1 with
  | zero =>
      intro f2 p n h1 _
      have hn : n = 0 := Nat.le_zero.mp h1
      subst hn
      cases f2 with
      | zero => rfl
      | succ f => simp [maxPowAux]
  | succ f ih =>
      intro f2 p n h1 h2
      by_cases hc : 2 ≤ p ∧ 0 < n ∧ n % p = 0
      · have hdiv : n / p < n := Nat.div_lt_self hc.2.1 (by omega)
        obtain ⟨f2', rfl⟩ : ∃ f2', f2 = f2' + 1 := ⟨f2 - 1, by omega⟩
        simp only [maxPowAux, if_pos hc]
        rw [ih f2' p (n / p) (by omega) (by omega)]
      · cases f2 with
        | zero =>
            have hn : n = 0 := Nat.le_zero.mp h2
            subst hn
            simp [maxPowAux, hc]
        | succ f2' => simp only [maxPowAux, if_neg hc]

theorem remPowAux_congr : ∀ f1 f2 p n : Nat, n ≤ f1 → n ≤ f2 →
    remPowAux f1 p n = remPowAux f2 p n := by
  intro f1
  induction f1 with
  | zero =>
      intro f2 p n h1 _
      have hn : n = 0 := Nat.le_zero.mp h1
      subst hn
      cases f2 with
      | zero => rfl
      | succ f => simp [remPowAux]
  | succ f ih =>
      intro f2 p n h1 h2
      by_cases hc : 2 ≤ p ∧ 0 < n ∧ n % p = 0
      · have hdiv : n / p < n := Nat.div_lt_self hc.2.1 (by omega)
        obtain ⟨f2', rfl⟩ : ∃ f2', f2 = f2' + 1 := ⟨f2 - 1, by omega⟩
        simp only [remPowAux, if_pos hc]
        rw [ih f2' p (n / p) (by omega) (by omega)]
      · cases f2 with
        | zero =>
            have hn : n = 0 := Nat.le_zero.mp h2
            subst hn
            simp [remPowAux, hc]
        | succ f2' => simp only [remPowAux, if_neg hc]

/-- The recursion equation of `maxPow`. -/
theorem maxPow_eq (p n : Nat) :
    maxPow p n = if 2 ≤ p ∧ 0 < n ∧ n % p = 0 then 1 + maxPow p (n / p) else 0 := by
  by_cases hc : 2 ≤ p ∧ 0 < n ∧ n % p = 0
  · have hdiv : n / p < n := Nat.div_lt_self hc.2.1 (by omega)
    obtain ⟨m, rfl⟩ : ∃ m, n = m + 1 := ⟨n - 1, by omega⟩
    simp only [maxPow, maxPowAux, if_pos hc]
    rw [maxPowAux_congr m ((m + 1) / p) p ((m + 1) / p) (by omega) (by omega)]
  · cases n with
    | zero => simp [maxPow, maxPowAux, hc]
    | succ m => simp only [maxPow, maxPowAux, if_neg hc]

/-- The recursion equation of `remPow`. -/
theorem remPow_eq (p n : Nat) :
    remPow p n = if 2 ≤ p ∧ 0 < n ∧ n % p = 0 then remPow p (n / p) else n := by
  by_cases hc : 2 ≤ p ∧ 0 < n ∧ n % p = 0
  · have hdiv : n / p < n := Nat.div_lt_self hc.2.1 (by omega)
    obtain ⟨m, rfl⟩ : ∃ m, n = m + 1 := ⟨n - 1, by omega⟩
    simp only [remPow, remPowAux, if_pos hc]
    rw [remPowAux_congr m ((m + 1) / p) p ((m + 1) / p) (by omega) (by omega)]
  · cases n with
    | zero => simp [remPow, remPowAux, hc]
    | succ m => simp only [remPow, remPowAux, if_neg hc]

/-- Exponent of the smallest power of ten a 10-smooth `d` divides. -/
def pow10exp (d : Nat) : Nat := max (maxPow 2 d) (maxPow 5 (remPow 2 d))

/-- Numerator of `q` scaled so that `ratScaled q / 10 ^ pow10exp q.den`
is `|q|` (for 10-smooth denominators). -/
def ratScaled (q : Rat) : Nat := q.num.natAbs * (10 ^ pow10exp q.den / q.den)

/-- Exact decimal rendering of a rational whose denominator divides a power
of ten; models Python `str()` on a float value (every float is such a
rational, and float repr round-trips).  Rationals outside that range do not
arise as float cell values; they render as "nan". -/
def ratToDecimalStr (q : Rat) : String :=
  if 10 ^ pow10exp q.den % q.den = 0 then
    (if q.num < 0 then "-" else "") ++
    (if pow10exp q.den = 0 then String.mk (natDigits (ratScaled q)) ++ ".0"
     else
       String.mk (natDigits (ratScaled q / 10 ^ pow10exp q.den)) ++ "." ++
       String.mk
         (List.replicate
            (pow10exp q.den -
              (natDigitsRev (ratScaled q % 10 ^ pow10exp q.den)).length) '0' ++
          (natDigitsRev (ratScaled q % 10 ^ pow10exp q.den)).reverse))
  else "nan"

/-! ### Cleaner operations (clean_airbnb.py) -/

/-- Python `str()` of one cell, as applied by `.astype(str)`: NaN prints as
"nan", floats print their decimal value, strings are unchanged, dates print
as an opaque timestamp string. -/
def astypeStr : Cell → String
  | Cell.na => "nan"
  | Cell.num q => ratToDecimalStr q
  | Cell.str s => s
  | Cell.date d => "timestamp(" ++ toString d ++ ")"

/-- Effect of `.str.replace(r"[\$,]", "", regex=True)`: delete every dollar
sign and comma. -/
def stripCur (s : String) : String :=
  String.mk (s.data.filter (fun c => !(c = '$' || c = ',')))

/-- One cell of a currency column after `clean_currency_cols`: stringify,
strip `$` and `,`, then coerce to a number. -/
def cleanCurrencyCell (c : Cell) : Cell :=
  toNumericCell (stripCur (astypeStr c))

/-- Simplified model of the date parser behind `pd.to_datetime` on a string:
an ISO `YYYY-MM-DD` numeral triple in calendar range parses to a packed
day value, anything else is unparsable.  The claims under verification do
not depend on which strings parse, only on parsed cells being fixed by a
second parse. -/
def parseDateStr (s : String) : Option Int :=
  match s.split (· = '-') with
  | [ys, ms, ds] =>
      if !ys.data.isEmpty && ys.data.all isDigitCh &&
         !ms.data.isEmpty && ms.data.all isDigitCh &&
         !ds.data.isEmpty && ds.data.all isDigitCh then
        let y := digitsVal ys.data
        let m := digitsVal ms.data
        let d := digitsVal ds.data
        if 1 ≤ m && m ≤ 12 && 1 ≤ d && d ≤ 31 then
          some ((y : Int) * 10000 + (m : Int) * 100 + (d : Int))
        else none
      else none
  | _ => none

/-- One cell after `pd.to_datetime(errors="coerce")`: datetimes pass through,
missing stays missing, strings parse or coerce to missing, numbers are
interpreted as an epoch offset. -/
def parseDateCell : Cell → Cell
  | Cell.na => Cell.na
  | Cell.date d => Cell.date d
  | Cell.str s =>
      match parseDateStr s with
      | some d => Cell.date d
      | none => Cell.na
  | Cell.num q => Cell.date q.floor

/-- Apply `f` to every cell of the first column named `name` (no-op when the
column is absent), the effect of `df[name] = f(df[name])`. -/
def mapColCells (t : Table) (name : String) (f : Cell → Cell) : Table :=
  match colIdx? t.header name with
  | some j => { header := t.header, rows := t.rows.map (fun r => r.set j (f (cellAt r j))) }
  | none => t

/-- normalize_columns: strip/lower/underscore every header name; cell values
are untouched (the function copies the frame and reassigns `df.columns`). -/
def normalize_columns (t : Table) : Table :=
  { header := t.header.map normName, rows := t.rows }

/-- Loop shape shared by clean_currency_cols and parse_date_cols: transform
each listed column that exists. -/
def colwiseApply (t : Table) (cols : List String) (f : Cell → Cell) : Table :=
  cols.foldl (fun acc c => if c ∈ acc.header then mapColCells acc c f else acc) t

/-- clean_currency_cols: for each requested column that exists, stringify,
strip `$` and `,`, and coerce to numeric. -/
def clean_currency_cols (t : Table) (cols : List String) : Table :=
  colwiseApply t cols cleanCurrencyCell

/-- parse_date_cols: coerce each requested column that exists to datetimes. -/
def parse_date_cols (t : Table) (cols : List String) : Table :=
  colwiseApply t cols parseDateCell

/-- Effect of `Series.fillna(v)` on one cell. -/
def fillCell (v : Cell) (c : Cell) : Cell :=
  match c with
  | Cell.na => v
  | c => c

/-- fill_missing_values: fill missing values with a per-column default, only
for columns that exist. -/
def fill_missing_values (t : Table) (defaults : List (String × Cell)) : Table :=
  defaults.foldl (fun acc cd => if cd.1 ∈ acc.header then mapColCells acc cd.1 (fillCell cd.2) else acc) t

/-- Row predicate of the hard-bound trim mask
`df[col].isna() | ((df[col] >= lower) & (df[col] <= upper))`. -/
def keepCell (lo hi : Rat) : Cell → Bool
  | Cell.na => true
  | Cell.num q => lo ≤ q && q ≤ hi
  | _ => false

/-- Whether a cell value can be compared against a number without a pandas
TypeError: only numbers and missing values can. -/
def cmpOK : Cell → Bool
  | Cell.na => true
  | Cell.num _ => true
  | _ => false

/-- remove_outliers_bounds: keep rows whose value in `col` is missing or
within `[lo, hi]`; a missing column returns the frame unchanged; comparing a
non-numeric column raises a TypeError. -/
def remove_outliers_bounds (t : Table) (col : String) (lo hi : Rat) : Except String Table :=
  match colIdx? t.header col with
  | none => Except.ok t
  | some j =>
      if t.rows.all (fun r => cmpOK (cellAt r j)) then
        Except.ok { header := t.header, rows := t.rows.filter (fun r => keepCell lo hi (cellAt r j)) }
      else Except.error "TypeError"

/-- Present (non-missing) numeric values of the first column named `col`,
i.e. the values `Series.dropna()` would keep in a numeric column. -/
def presentNums (t : Table) : String → List Rat :=
  fun col =>
    match colIdx? t.header col with
    | none => []
    | some j => t.rows.filterMap (fun r => match cellAt r j with
        | Cell.num q => some q
        | _ => none)

/-- Minimum of a list of rationals (none when empty, like the NaN that
`Series.min()` yields on an empty series). -/
def minList : List Rat → Option Rat
  | [] => none
  | q :: rest =>
      match minList rest with
      | none => some q
      | some m => some (min q m)

/-- Maximum of a list of rationals (none when empty). -/
def maxList : List Rat → Option Rat
  | [] => none
  | q :: rest =>
      match maxList rest with
      | none => some q
      | some m => some (max q m)

/-- Whether every cell of column `col` is numeric or missing (so pandas
reductions and comparisons on it behave numerically). -/
def colNumOrNA (t : Table) (col : String) : Bool :=
  match colIdx? t.header col with
  | none => true
  | some j => t.rows.all (fun r => cmpOK (cellAt r j))

/-- The assertion `df[col].dropna().min() >= lo`: on an empty series the min
is NaN and the comparison is False, so the assertion fires.  Comparing a
non-numeric column raises a TypeError instead. -/
def assertMinGE (t : Table) (col : String) (lo : Rat) : Except String Bool :=
  if col ∈ t.header then
    if colNumOrNA t col then
      match minList (presentNums t col) with
      | none => Except.ok false
      | some m => Except.ok (lo ≤ m)
    else Except.error "TypeError"
  else Except.ok true

/-- The assertion `df[col].dropna().max() <= hi`, with the same NaN and
TypeError behaviour. -/
def assertMaxLE (t : Table) (col : String) (hi : Rat) : Except String Bool :=
  if col ∈ t.header then
    if colNumOrNA t col then
      match maxList (presentNums t col) with
      | none => Except.ok false
      | some m => Except.ok (m ≤ hi)
    else Except.error "TypeError"
  else Except.ok true

/-- sanity_checks: the four assert statements in order; returns `ok true`
when every assertion passes, `ok false` when the first failing assertion
fires (an AssertionError abort), and an error for a TypeError. -/
def sanity_checks (t : Table) : Except String Bool := do
  let b1 ← assertMinGE t "price" 0
  if !b1 then return false
  let b2 ← assertMinGE t "number_of_reviews" 0
  if !b2 then return false
  let b3 ← assertMinGE t "reviews_per_month" 0
  if !b3 then return false
  let b4 ← assertMinGE t "availability_365" 0
  if !b4 then return false
  let b5 ← assertMaxLE t "availability_365" 365
  return b5

/-- Lines 114-115 of `main`: hard-bound outlier removal on price then on
availability_365. -/
def hardBoundTrims (t : Table) : Except String Table := do
  let t5 ← remove_outliers_bounds t "price" 0 10000
  remove_outliers_bounds t5 "availability_365" 0 365

/-- Steps 1-5 of `main` in clean_airbnb.py: normalise headers, coerce the
currency columns that are present, parse dates, fill defaults, trim hard
bounds on price and availability_365. -/
def cleanStepsPreSanity (t : Table) : Except String Table := do
  let t1 := normalize_columns t
  let t2 := clean_currency_cols t1 (["price", "service_fee"].filter (· ∈ t1.header))
  let t3 := parse_date_cols t2 ["last_review"]
  let t4 := fill_missing_values t3
    [("reviews_per_month", Cell.num 0), ("host_identity_verified", Cell.str "unknown")]
  hardBoundTrims t4

/-- The cleaner `main` up to the save step: transformation steps then the
sanity checks; an assertion failure aborts the run. -/
def mainPipeline (t : Table) : Except String Table := do
  let u ← cleanStepsPreSanity t
  let ok ← sanity_checks u
  if ok then return u else Except.error "AssertionError"

/-! ### Batch reporter computations (eda_airbnb.py) -/

/-- Round a rational to the nearest integer, ties to even — the rounding
used by pandas/numpy `round`. -/
def roundHalfEven (x : Rat) : Int :=
  if rSub x (⌊x⌋ : Rat) < Rat.divInt 1 2 then ⌊x⌋
  else if Rat.divInt 1 2 < rSub x (⌊x⌋ : Rat) then ⌊x⌋ + 1
  else if Even ⌊x⌋ then ⌊x⌋ else ⌊x⌋ + 1

/-- The defining case split of `roundHalfEven` in field-operation form. -/
theorem roundHalfEven_eq (x : Rat) :
    roundHalfEven x =
      if x - (⌊x⌋ : Rat) < 1/2 then ⌊x⌋
      else if (1 : Rat)/2 < x - (⌊x⌋ : Rat) then ⌊x⌋ + 1
      else if Even ⌊x⌋ then ⌊x⌋ else ⌊x⌋ + 1 := by
  have hh : Rat.divInt 1 2 = (1 : Rat)/2 := by
    rw [Rat.divInt_eq_div]; norm_num
  rw [roundHalfEven, rSub_eq, hh]

/-- Round to 2 decimal places, ties to even (`Series.round(2)`). -/
def round2 (q : Rat) : Rat := Rat.divInt (roundHalfEven (rMul q 100)) 100

/-- `round2` in field-operation form. -/
theorem round2_eq (q : Rat) :
    round2 q = (roundHalfEven (q * 100) : Rat) / 100 := by
  rw [round2, rMul_eq, Rat.divInt_eq_div]
  norm_num

/-- Present string values of column `col` (the non-null group keys). -/
def presentStrs (t : Table) (col : String) : List String :=
  match colIdx? t.header col with
  | none => []
  | some j => t.rows.filterMap (fun r => match cellAt r j with
      | Cell.str s => some s
      | _ => none)

/-- Price values of the rows in neighbourhood group `k` (pandas `mean`
skips missing values). -/
def groupPrices (t : Table) (k : String) : List Rat :=
  match colIdx? t.header "neighbourhood_group", colIdx? t.header "price" with
  | some jg, some jp =>
      t.rows.filterMap (fun r =>
        if cellAt r jg = Cell.str k then
          match cellAt r jp with
          | Cell.num q => some q
          | _ => none
        else none)
  | _, _ => []

/-- Group mean of price for key `k`; an all-missing group means to NaN,
modelled as `none`. -/
def groupMean (t : Table) (k : String) : Option Rat :=
  match groupPrices t k with
  | [] => none
  | l => some (rDiv (rSum l) (l.length : Rat))

/-- Descending order on the displayed value, missing values last — the order
produced by `sort_values(ascending=False)`. -/
def valDesc (a b : String × Option Rat) : Prop :=
  match a.2, b.2 with
  | some x, some y => y ≤ x
  | some _, none => True
  | none, some _ => False
  | none, none => True

instance : DecidableRel valDesc := fun a b => by
  obtain ⟨a1, _ | x⟩ := a <;> obtain ⟨b1, _ | y⟩ := b <;>
    simp only [valDesc] <;> infer_instance

instance : IsTotal (String × Option Rat) valDesc :=
  ⟨by
    intro a b
    obtain ⟨a1, _ | x⟩ := a <;> obtain ⟨b1, _ | y⟩ := b <;>
      simp only [valDesc] <;> simp [le_total]⟩

instance : IsTrans (String × Option Rat) valDesc :=
  ⟨by
    intro a b c hab hbc
    obtain ⟨a1, _ | x⟩ := a <;> obtain ⟨b1, _ | y⟩ := b <;> obtain ⟨c1, _ | z⟩ := c <;>
      simp only [valDesc] at * <;> first | trivial | exact le_trans hbc hab⟩

/-- Unrounded per-group means, sorted descending (missing last). -/
def avgPairsUnrounded (t : Table) : List (String × Option Rat) :=
  List.insertionSort valDesc
    ((presentStrs t "neighbourhood_group").dedup.map (fun k => (k, groupMean t k)))

/-- avg_price_by_neighbourhood_group: mean price per neighbourhood group,
sorted descending, then rounded to 2 decimals; an empty result when either
column is missing. -/
def avg_price_by_neighbourhood_group (t : Table) : List (String × Option Rat) :=
  if "neighbourhood_group" ∈ t.header ∧ "price" ∈ t.header then
    (avgPairsUnrounded t).map (fun p => (p.1, p.2.map round2))
  else []

/-- Present (host_id, host_name) key pairs: rows where both key cells are
non-missing (groupby drops keys containing NaN). -/
def presentKeyPairs (t : Table) : List (Cell × Cell) :=
  match colIdx? t.header "host_id", colIdx? t.header "host_name" with
  | some ji, some jn =>
      t.rows.filterMap (fun r =>
        if cellAt r ji ≠ Cell.na ∧ cellAt r jn ≠ Cell.na then
          some (cellAt r ji, cellAt r jn)
        else none)
  | _, _ => []

/-- Listing count for one host key: `groupby([...])["id"].count()` counts
rows of the group whose `id` is non-missing. -/
def countHost (t : Table) (p : Cell × Cell) : Nat :=
  match colIdx? t.header "host_id", colIdx? t.header "host_name",
        colIdx? t.header "id" with
  | some ji, some jn, some jd =>
      t.rows.countP (fun r =>
        cellAt r ji = p.1 && cellAt r jn = p.2 && cellAt r jd ≠ Cell.na)
  | _, _, _ => 0

/-- Descending order on the count. -/
def cntDesc (a b : (Cell × Cell) × Nat) : Prop := b.2 ≤ a.2

instance : DecidableRel cntDesc := fun a b => by unfold cntDesc; infer_instance

instance : IsTotal ((Cell × Cell) × Nat) cntDesc := ⟨fun a b => le_total b.2 a.2⟩

instance : IsTrans ((Cell × Cell) × Nat) cntDesc :=
  ⟨fun _ _ _ hab hbc => le_trans hbc hab⟩

/-- All host counts, sorted descending by count. -/
def topHostsAll (t : Table) : List ((Cell × Cell) × Nat) :=
  List.insertionSort cntDesc
    ((presentKeyPairs t).dedup.map (fun p => (p, countHost t p)))

/-- top_hosts: listing counts per (host_id, host_name), descending, truncated
to the top `n` (default 10); empty when a required column is missing. -/
def top_hosts (t : Table) (n : Nat := 10) : List ((Cell × Cell) × Nat) :=
  if "host_id" ∈ t.header ∧ "host_name" ∈ t.header ∧ "id" ∈ t.header then
    (topHostsAll t).take n
  else []

/-! ### Dashboard filter pipeline (app.py) -/

/-- Sidebar filter settings: the numeric ranges and the categorical
selections; a selection is `none` exactly when its column is absent and the
sidebar therefore built no multiselect. -/
structure Filters where
  priceLo : Rat
  priceHi : Rat
  availLo : Rat
  availHi : Rat
  rpmLo : Rat
  rpmHi : Rat
  ng : Option (List String)
  rt : Option (List String)
deriving DecidableEq, Repr

/-- One cell against `Series.between(lo, hi)`: missing compares False. -/
def betweenCell (lo hi : Rat) : Cell → Bool
  | Cell.num q => lo ≤ q && q ≤ hi
  | _ => false

/-- Mask of `df[col].between(lo, hi)`: KeyError when the column is absent,
TypeError when it is not numeric. -/
def betweenMask (t : Table) (col : String) (lo hi : Rat) : Except String (List Bool) :=
  match colIdx? t.header col with
  | none => Except.error ("KeyError: " ++ col)
  | some j =>
      if t.rows.all (fun r => cmpOK (cellAt r j)) then
        Except.ok (t.rows.map (fun r => betweenCell lo hi (cellAt r j)))
      else Except.error "TypeError"

/-- Mask of `df[col].isin(sel)`: a string cell matches iff it is in the
selection; missing and non-string cells never match. -/
def isinMask (t : Table) (col : String) (sel : List String) : Except String (List Bool) :=
  match colIdx? t.header col with
  | none => Except.error ("KeyError: " ++ col)
  | some j =>
      Except.ok (t.rows.map (fun r => match cellAt r j with
        | Cell.str s => decide (s ∈ sel)
        | _ => false))

/-- Pointwise conjunction of two masks. -/
def andMask (a b : List Bool) : List Bool := List.zipWith and a b

/-- Keep the rows whose mask entry is true (`df.loc[mask]`). -/
def maskFilter (rows : List (List Cell)) (m : List Bool) : List (List Cell) :=
  (rows.zip m).filterMap (fun rb => if rb.2 then some rb.1 else none)

/-- The guarded ternary
`df[col].between(...) if col in df.columns else True` of lines 101-102:
an absent column contributes an all-pass mask. -/
def optionalBetween (t : Table) (col : String) (lo hi : Rat) : Except String (List Bool) :=
  if col ∈ t.header then betweenMask t col lo hi
  else Except.ok (t.rows.map (fun _ => true))

/-- The conditional `mask &= df[col].isin(selected)` of lines 104-107: the
`isin` restriction is applied exactly when a selection exists (the sidebar
builds a selection exactly when the column is present). -/
def catMask (t : Table) (col : String) (sel? : Option (List String)) (m : List Bool) :
    Except String (List Bool) :=
  match sel? with
  | none => Except.ok m
  | some sel => do
      let mc ← isinMask t col sel
      Except.ok (andMask m mc)

/-- The dashboard filter pipeline, lines 99-109 of app.py: the price
`between` is applied unconditionally (no column-presence guard), the
availability and reviews-per-month `between` fall back to an all-pass mask
when their column is absent, and each categorical `isin` is applied exactly
when a selection exists.  The masks are AND-combined and the view is
`df.loc[mask]`. -/
def applyFilters (t : Table) (fs : Filters) : Except String Table := do
  let mPrice ← betweenMask t "price" fs.priceLo fs.priceHi
  let mAvail ← optionalBetween t "availability_365" fs.availLo fs.availHi
  let mRpm ← optionalBetween t "reviews_per_month" fs.rpmLo fs.rpmHi
  let m1 ← catMask t "neighbourhood_group" fs.ng (andMask (andMask mPrice mAvail) mRpm)
  let m2 ← catMask t "room_type" fs.rt m1
  Except.ok { header := t.header, rows := maskFilter t.rows m2 }

/-! ### Object-store embedding for frame conditions

To state that a per-step cleaning function does not mutate its argument we
model Python object identity explicitly: a store of DataFrame objects,
references as indices, `df.copy()` as allocation, and in-place column
assignment as a store update at the reference being mutated.  Each `Impl`
below is the statement-by-statement translation of the corresponding
function in clean_airbnb.py. -/

/-- A store of DataFrame objects; references are indices. -/
def getRef (σ : List Table) (r : Nat) : Table := σ.getD r ⟨[], []⟩

/-- Allocate a fresh object, yielding the extended store and the new
reference. -/
def allocT (σ : List Table) (t : Table) : List Table × Nat := (σ ++ [t], σ.length)

/-- In-place mutation of the object behind a reference. -/
def setRef (σ : List Table) (r : Nat) (t : Table) : List Table := σ.set r t

/-- normalize_columns, heap-level: copy the argument, then reassign
`df.columns` on the copy; the argument object is never written. -/
def normalize_columnsImpl (σ : List Table) (r : Nat) : List Table × Nat :=
  let ar := allocT σ (getRef σ r)
  let σ2 := setRef ar.1 ar.2 (normalize_columns (getRef ar.1 ar.2))
  (σ2, ar.2)

/-- clean_currency_cols, heap-level: copy, then per-column in-place
assignment on the copy. -/
def clean_currency_colsImpl (σ : List Table) (r : Nat) (cols : List String) :
    List Table × Nat :=
  let ar := allocT σ (getRef σ r)
  let σ2 := cols.foldl (fun s c =>
      if c ∈ (getRef s ar.2).header then
        setRef s ar.2 (mapColCells (getRef s ar.2) c cleanCurrencyCell)
      else s) ar.1
  (σ2, ar.2)

/-- parse_date_cols, heap-level. -/
def parse_date_colsImpl (σ : List Table) (r : Nat) (cols : List String) :
    List Table × Nat :=
  let ar := allocT σ (getRef σ r)
  let σ2 := cols.foldl (fun s c =>
      if c ∈ (getRef s ar.2).header then
        setRef s ar.2 (mapColCells (getRef s ar.2) c parseDateCell)
      else s) ar.1
  (σ2, ar.2)

/-- fill_missing_values, heap-level. -/
def fill_missing_valuesImpl (σ : List Table) (r : Nat) (defaults : List (String × Cell)) :
    List Table × Nat :=
  let ar := allocT σ (getRef σ r)
  let σ2 := defaults.foldl (fun s cd =>
      if cd.1 ∈ (getRef s ar.2).header then
        setRef s ar.2 (mapColCells (getRef s ar.2) cd.1 (fillCell cd.2))
      else s) ar.1
  (σ2, ar.2)

/-- remove_outliers_bounds, heap-level: no copy and no mutation — either the
argument reference itself is returned (absent column) or a fresh filtered
object is allocated. -/
def remove_outliers_boundsImpl (σ : List Table) (r : Nat) (col : String) (lo hi : Rat) :
    Except String (List Table × Nat) :=
  let df := getRef σ r
  match colIdx? df.header col with
  | none => Except.ok (σ, r)
  | some j =>
      if df.rows.all (fun rw => cmpOK (cellAt rw j)) then
        Except.ok (allocT σ
          { header := df.header, rows := df.rows.filter (fun rw => keepCell lo hi (cellAt rw j)) })
      else Except.error "TypeError"

/-! ### Basic lemmas about columns and masks -/

theorem colIdx?_get {h : List String} {name : String} {j : Nat} :
    colIdx? h name = some j → ∃ hj : j < h.length, h.get ⟨j, hj⟩ = name := by
  induction h generalizing j with
  | nil => intro hc; simp [colIdx?] at hc
  | cons c rest ih =>
      intro hc
      by_cases he : c = name
      · subst he
        simp [colIdx?] at hc
        subst hc
        exact ⟨by simp, rfl⟩
      · simp [colIdx?, he] at hc
        obtain ⟨j0, hj0, rfl⟩ := hc
        obtain ⟨hl, hg⟩ := ih hj0
        exact ⟨by simpa using Nat.succ_lt_succ hl, by simpa using hg⟩

theorem colIdx?_inj {h : List String} {n1 n2 : String} {j : Nat}
    (h1 : colIdx? h n1 = some j) (h2 : colIdx? h n2 = some j) : n1 = n2 := by
  obtain ⟨hl1, hg1⟩ := colIdx?_get h1
  obtain ⟨hl2, hg2⟩ := colIdx?_get h2
  rw [← hg1, hg2]

theorem colIdx?_of_not_mem {h : List String} {name : String} (hn : name ∉ h) :
    colIdx? h name = none := by
  cases hc : colIdx? h name with
  | none => rfl
  | some j =>
      exact absurd (colIdx?_isSome.mp (by simp [hc])) hn

theorem mem_andMask_left : ∀ {x y : List Bool}, (∀ b ∈ x, b = false) →
    ∀ b ∈ andMask x y, b = false := by
  intro x
  induction x with
  | nil => intro y _ b hb; simp [andMask] at hb
  | cons a x ih =>
      intro y hx b hb
      cases y with
      | nil => simp [andMask] at hb
      | cons c y =>
          simp only [andMask, List.zipWith_cons_cons, List.mem_cons] at hb
          rcases hb with rfl | hb
          · have ha : a = false := hx a (List.mem_cons_self _ _)
            simp [ha]
          · exact ih (fun b hb => hx b (List.mem_cons_of_mem _ hb)) b hb

theorem mem_andMask_right : ∀ {x y : List Bool}, (∀ b ∈ y, b = false) →
    ∀ b ∈ andMask x y, b = false := by
  intro x
  induction x with
  | nil => intro y _ b hb; simp [andMask] at hb
  | cons a x ih =>
      intro y hy b hb
      cases y with
      | nil => simp [andMask] at hb
      | cons c y =>
          simp only [andMask, List.zipWith_cons_cons, List.mem_cons] at hb
          rcases hb with rfl | hb
          · have hc : c = false := hy c (List.mem_cons_self _ _)
            simp [hc]
          · exact ih (fun b hb => hy b (List.mem_cons_of_mem _ hb)) b hb

theorem maskFilter_all_false {rows : List (List Cell)} {m : List Bool}
    (hm : ∀ b ∈ m, b = false) : maskFilter rows m = [] := by
  rw [maskFilter, List.filterMap_eq_nil]
  intro rb hrb
  have : rb.2 ∈ m := (List.of_mem_zip hrb).2
  simp [hm rb.2 this]

theorem isinMask_nil {t : Table} {col : String} (hc : col ∈ t.header) :
    ∃ m, isinMask t col [] = Except.ok m ∧ ∀ b ∈ m, b = false := by
  obtain ⟨j, hj⟩ := colIdx?_mem hc
  refine ⟨_, by simp only [isinMask, hj]; rfl, ?_⟩
  intro b hb
  simp only [List.mem_map] at hb
  obtain ⟨r, _, hr⟩ := hb
  cases hcell : cellAt r j <;> simp [hcell] at hr <;> simp [← hr]

theorem isinMask_ok {t : Table} {col : String} (hc : col ∈ t.header) (sel : List String) :
    ∃ m, isinMask t col sel = Except.ok m := by
  obtain ⟨j, hj⟩ := colIdx?_mem hc
  exact ⟨_, by simp only [isinMask, hj]; rfl⟩

theorem betweenMask_ok {t : Table} {col : String} (hc : col ∈ t.header)
    (hn : colNumOrNA t col = true) (lo hi : Rat) :
    ∃ m, betweenMask t col lo hi = Except.ok m := by
  obtain ⟨j, hj⟩ := colIdx?_mem hc
  simp only [colNumOrNA, hj] at hn
  exact ⟨_, by simp only [betweenMask, hj, hn, if_true]; rfl⟩

theorem optionalBetween_ok {t : Table} {col : String} (hn : colNumOrNA t col = true)
    (lo hi : Rat) : ∃ m, optionalBetween t col lo hi = Except.ok m := by
  by_cases hc : col ∈ t.header
  · obtain ⟨m, hm⟩ := betweenMask_ok hc hn lo hi
    exact ⟨m, by rw [optionalBetween, if_pos hc, hm]⟩
  · exact ⟨_, by rw [optionalBetween, if_neg hc]⟩

theorem catMask_empty {t : Table} {col : String} (hc : col ∈ t.header) (m0 : List Bool) :
    ∃ m, catMask t col (some []) m0 = Except.ok m ∧ ∀ b ∈ m, b = false := by
  obtain ⟨mc, hmc, hfalse⟩ := isinMask_nil hc
  refine ⟨andMask m0 mc, ?_, mem_andMask_right hfalse⟩
  rw [catMask, hmc]
  rfl

theorem catMask_preserves_false {t : Table} {col : String} {sel? : Option (List String)}
    (hok : sel? = none ∨ col ∈ t.header) {m0 : List Bool} (hm0 : ∀ b ∈ m0, b = false) :
    ∃ m, catMask t col sel? m0 = Except.ok m ∧ ∀ b ∈ m, b = false := by
  cases sel? with
  | none => exact ⟨m0, rfl, hm0⟩
  | some sel =>
      rcases hok with hok | hok
      · simp at hok
      · obtain ⟨mc, hmc⟩ := isinMask_ok hok sel
        refine ⟨andMask m0 mc, ?_, mem_andMask_left hm0⟩
        rw [catMask, hmc]
        rfl

/-- C1: evaluation of the dashboard filter pipeline at a loaded table that
has no `price` column.  Line 100 of app.py evaluates
`df["price"].between(...)` without the column-presence guard that the other
filters have, so the pipeline raises a KeyError instead of treating the
absent-column filter as pass-everything. -/
theorem c1_absent_price_filter_raises :
    applyFilters ⟨["availability_365"], [[Cell.num 100]]⟩
      ⟨0, 1000, 0, 365, 0, 999, none, none⟩ = Except.error "KeyError: price" := by
  rfl

/-- C8 counterexample: a table with a `neighbourhood_group` column but no
`price` column, filtered with an empty neighbourhood-group selection.  The
claim says the empty multi-select yields an empty filtered view, but the
pipeline raises a KeyError on the unguarded price filter, so no view is
produced at all. -/
theorem c8_empty_select_counterexample :
    applyFilters ⟨["neighbourhood_group"], [[Cell.str "A"]]⟩
      ⟨0, 1000, 0, 365, 0, 999, some [], none⟩ = Except.error "KeyError: price" := by
  rfl

/-- C8 (amended): dashboard filtering is a pure function of the table and
the filter settings — equal inputs give equal outputs — and, provided the
`price` column is present (otherwise the pipeline raises, see the
counterexample) and the numeric filter columns are numeric, an empty
categorical multi-select yields an empty filtered view. -/
theorem c8_filtering_pure_and_empty_select :
    (∀ (t1 t2 : Table) (fs1 fs2 : Filters), t1 = t2 → fs1 = fs2 →
       applyFilters t1 fs1 = applyFilters t2 fs2) ∧
    (∀ (t : Table) (fs : Filters), "price" ∈ t.header →
       colNumOrNA t "price" = true → colNumOrNA t "availability_365" = true →
       colNumOrNA t "reviews_per_month" = true →
       "neighbourhood_group" ∈ t.header → fs.ng = some [] →
       (fs.rt = none ∨ "room_type" ∈ t.header) →
       applyFilters t fs = Except.ok ⟨t.header, []⟩) ∧
    (∀ (t : Table) (fs : Filters), "price" ∈ t.header →
       colNumOrNA t "price" = true → colNumOrNA t "availability_365" = true →
       colNumOrNA t "reviews_per_month" = true →
       "room_type" ∈ t.header → fs.rt = some [] →
       (fs.ng = none ∨ "neighbourhood_group" ∈ t.header) →
       applyFilters t fs = Except.ok ⟨t.header, []⟩) := by
  refine ⟨fun t1 t2 fs1 fs2 ht hfs => by rw [ht, hfs], ?_, ?_⟩
  · intro t fs hp hnp hna hnr hng hsel hrt
    obtain ⟨mP, hmP⟩ := betweenMask_ok hp hnp fs.priceLo fs.priceHi
    obtain ⟨mA, hmA⟩ := optionalBetween_ok hna fs.availLo fs.availHi
    obtain ⟨mR, hmR⟩ := optionalBetween_ok hnr fs.rpmLo fs.rpmHi
    obtain ⟨m1, hm1, hfalse1⟩ := by
      rw [hsel] at *
      exact catMask_empty hng (andMask (andMask mP mA) mR)
    obtain ⟨m2, hm2, hfalse2⟩ := catMask_preserves_false hrt hfalse1
    rw [applyFilters, hmP]
    simp only [bind, Except.bind]
    rw [hmA]
    simp only [bind, Except.bind]
    rw [hmR]
    simp only [bind, Except.bind]
    rw [hsel, hm1]
    simp only [bind, Except.bind]
    rw [hm2]
    simp only [bind, Except.bind]
    rw [maskFilter_all_false hfalse2]
  · intro t fs hp hnp hna hnr hrtm hsel hng
    obtain ⟨mP, hmP⟩ := betweenMask_ok hp hnp fs.priceLo fs.priceHi
    obtain ⟨mA, hmA⟩ := optionalBetween_ok hna fs.availLo fs.availHi
    obtain ⟨mR, hmR⟩ := optionalBetween_ok hnr fs.rpmLo fs.rpmHi
    obtain ⟨m1, hm1⟩ : ∃ m1, catMask t "neighbourhood_group" fs.ng
        (andMask (andMask mP mA) mR) = Except.ok m1 := by
      cases hngv : fs.ng with
      | none => exact ⟨_, rfl⟩
      | some sel =>
          rcases hng with hng | hng
          · rw [hngv] at hng; simp at hng
          · obtain ⟨mc, hmc⟩ := isinMask_ok hng sel
            exact ⟨_, by rw [catMask, hmc]; rfl⟩
    obtain ⟨m2, hm2, hfalse2⟩ := by
      rw [hsel] at *
      exact catMask_empty hrtm m1
    rw [applyFilters, hmP]
    simp only [bind, Except.bind]
    rw [hmA]
    simp only [bind, Except.bind]
    rw [hmR]
    simp only [bind, Except.bind]
    rw [hm1]
    simp only [bind, Except.bind]
    rw [hsel, hm2]
    simp only [bind, Except.bind]
    rw [maskFilter_all_false hfalse2]

/-! ### Lemmas about the hard-bound trim and the sanity checks -/

theorem keepCell_cmpOK {lo hi : Rat} {c : Cell} (h : keepCell lo hi c = true) :
    cmpOK c = true := by
  cases c <;> simp [keepCell, cmpOK] at *

theorem keepCell_bounds {lo hi : Rat} {c : Cell} (h : keepCell lo hi c = true) :
    c = Cell.na ∨ ∃ q, c = Cell.num q ∧ lo ≤ q ∧ q ≤ hi := by
  cases c with
  | na => exact Or.inl rfl
  | num q =>
      simp only [keepCell, Bool.and_eq_true, decide_eq_true_eq] at h
      exact Or.inr ⟨q, rfl, h.1, h.2⟩
  | str s => simp [keepCell] at h
  | date d => simp [keepCell] at h

theorem remove_outliers_cases {t : Table} {col : String} {lo hi : Rat} {u : Table}
    (h : remove_outliers_bounds t col lo hi = Except.ok u) :
    (colIdx? t.header col = none ∧ u = t) ∨
    (∃ j, colIdx? t.header col = some j ∧
       (∀ r ∈ t.rows, cmpOK (cellAt r j) = true) ∧
       u = ⟨t.header, t.rows.filter (fun r => keepCell lo hi (cellAt r j))⟩) := by
  cases hc : colIdx? t.header col with
  | none =>
      left
      simp only [remove_outliers_bounds, hc] at h
      exact ⟨rfl, (Except.ok.injEq _ _).mp h |>.symm⟩
  | some j =>
      right
      simp only [remove_outliers_bounds, hc] at h
      by_cases hall : t.rows.all (fun r => cmpOK (cellAt r j)) = true
      · rw [if_pos hall] at h
        refine ⟨j, rfl, fun r hr => List.all_eq_true.mp hall r hr, ?_⟩
        exact ((Except.ok.injEq _ _).mp h).symm
      · rw [if_neg hall] at h
        exact absurd h (by simp)

theorem remove_outliers_header {t : Table} {col : String} {lo hi : Rat} {u : Table}
    (h : remove_outliers_bounds t col lo hi = Except.ok u) : u.header = t.header := by
  rcases remove_outliers_cases h with ⟨_, rfl⟩ | ⟨j, _, _, rfl⟩ <;> rfl

theorem remove_outliers_subset {t : Table} {col : String} {lo hi : Rat} {u : Table}
    (h : remove_outliers_bounds t col lo hi = Except.ok u) : ∀ r ∈ u.rows, r ∈ t.rows := by
  rcases remove_outliers_cases h with ⟨_, rfl⟩ | ⟨j, _, _, rfl⟩
  · exact fun r hr => hr
  · exact fun r hr => (List.mem_filter.mp hr).1

theorem mem_presentNums {t : Table} {col : String} {q : Rat} :
    q ∈ presentNums t col ↔
      ∃ j, colIdx? t.header col = some j ∧ ∃ r ∈ t.rows, cellAt r j = Cell.num q := by
  constructor
  · intro h
    cases hc : colIdx? t.header col with
    | none => simp only [presentNums, hc] at h; exact absurd h (List.not_mem_nil q)
    | some j =>
        simp only [presentNums, hc, List.mem_filterMap] at h
        obtain ⟨r, hr, hcell⟩ := h
        refine ⟨j, rfl, r, hr, ?_⟩
        cases hcv : cellAt r j <;> simp [hcv] at hcell <;> simp [hcell]
  · rintro ⟨j, hj, r, hr, hcell⟩
    simp only [presentNums, hj, List.mem_filterMap]
    exact ⟨r, hr, by simp [hcell]⟩

theorem presentNums_ne_nil_mem {t : Table} {col : String}
    (h : presentNums t col ≠ []) : col ∈ t.header := by
  by_contra hn
  exact h (by simp [presentNums, colIdx?_of_not_mem hn])

theorem minList_eq_none {l : List Rat} : minList l = none ↔ l = [] := by
  cases l with
  | nil => simp [minList]
  | cons q rest => simp only [minList]; cases minList rest <;> simp

theorem minList_mem {l : List Rat} {m : Rat} (h : minList l = some m) : m ∈ l := by
  induction l generalizing m with
  | nil => simp [minList] at h
  | cons q rest ih =>
      simp only [minList] at h
      cases hr : minList rest with
      | none => rw [hr] at h; simp at h; simp [h]
      | some m0 =>
          rw [hr] at h
          simp at h
          rcases min_choice q m0 with hm | hm <;> rw [← h, hm]
          · simp
          · exact List.mem_cons_of_mem _ (ih hr)

theorem minList_le {l : List Rat} {m : Rat} (h : minList l = some m) :
    ∀ q ∈ l, m ≤ q := by
  induction l generalizing m with
  | nil => simp
  | cons q rest ih =>
      simp only [minList] at h
      intro x hx
      cases hr : minList rest with
      | none =>
          rw [hr] at h
          simp at h
          have : rest = [] := minList_eq_none.mp hr
          subst this
          simp at hx
          simp [hx, ← h]
      | some m0 =>
          rw [hr] at h
          simp at h
          rcases List.mem_cons.mp hx with rfl | hx
          · rw [← h]; exact min_le_left _ _
          · exact le_trans (h ▸ min_le_right q m0) (ih hr x hx)

theorem maxList_eq_none {l : List Rat} : maxList l = none ↔ l = [] := by
  cases l with
  | nil => simp [maxList]
  | cons q rest => simp only [maxList]; cases maxList rest <;> simp

theorem maxList_mem {l : List Rat} {m : Rat} (h : maxList l = some m) : m ∈ l := by
  induction l generalizing m with
  | nil => simp [maxList] at h
  | cons q rest ih =>
      simp only [maxList] at h
      cases hr : maxList rest with
      | none => rw [hr] at h; simp at h; simp [h]
      | some m0 =>
          rw [hr] at h
          simp at h
          rcases max_choice q m0 with hm | hm <;> rw [← h, hm]
          · simp
          · exact List.mem_cons_of_mem _ (ih hr)

theorem maxList_ge {l : List Rat} {m : Rat} (h : maxList l = some m) :
    ∀ q ∈ l, q ≤ m := by
  induction l generalizing m with
  | nil => simp
  | cons q rest ih =>
      simp only [maxList] at h
      intro x hx
      cases hr : maxList rest with
      | none =>
          rw [hr] at h
          simp at h
          have : rest = [] := maxList_eq_none.mp hr
          subst this
          simp at hx
          simp [hx, ← h]
      | some m0 =>
          rw [hr] at h
          simp at h
          rcases List.mem_cons.mp hx with rfl | hx
          · rw [← h]; exact le_max_left _ _
          · exact le_trans (ih hr x hx) (h ▸ le_max_right q m0)

/-- C8 witness: the amended theorem applied at a concrete table and filter
settings with an empty neighbourhood-group selection. -/
theorem c8_witness :
    applyFilters ⟨["price", "neighbourhood_group"], [[Cell.num 5, Cell.str "A"]]⟩
      ⟨0, 1000, 0, 365, 0, 999, some [], none⟩ =
      Except.ok ⟨["price", "neighbourhood_group"], []⟩ :=
  c8_filtering_pure_and_empty_select.2.1
    ⟨["price", "neighbourhood_group"], [[Cell.num 5, Cell.str "A"]]⟩
    ⟨0, 1000, 0, 365, 0, 999, some [], none⟩
    (by decide) (by decide) (by decide)
    (by decide) (by decide) rfl (Or.inl rfl)

/-- C2: hard-bound outlier removal.  Every surviving row has its price
missing or in [0, 10000] and its availability_365 missing or in [0, 365]
whenever those columns are present; and a single hard-bound trim keeps every
input row whose value in the bounded column is missing. -/
theorem c2_hard_bound_trim :
    (∀ t u, hardBoundTrims t = Except.ok u →
       ∀ r ∈ u.rows,
         (∀ j, colIdx? u.header "price" = some j →
            cellAt r j = Cell.na ∨ ∃ q, cellAt r j = Cell.num q ∧ 0 ≤ q ∧ q ≤ 10000) ∧
         (∀ j, colIdx? u.header "availability_365" = some j →
            cellAt r j = Cell.na ∨ ∃ q, cellAt r j = Cell.num q ∧ 0 ≤ q ∧ q ≤ 365)) ∧
    (∀ t col (lo hi : Rat) u, remove_outliers_bounds t col lo hi = Except.ok u →
       ∀ r ∈ t.rows, (∀ j, colIdx? t.header col = some j → cellAt r j = Cell.na) →
         r ∈ u.rows) := by
  constructor
  · intro t u h r hr
    rw [hardBoundTrims] at h
    cases h5 : remove_outliers_bounds t "price" 0 10000 with
    | error e => rw [h5] at h; simp [bind, Except.bind] at h
    | ok t5 =>
        rw [h5] at h
        simp only [bind, Except.bind] at h
        have hhead : u.header = t5.header := remove_outliers_header h
        constructor
        · intro j hj
          rcases remove_outliers_cases h5 with ⟨hc, rfl⟩ | ⟨j0, hj0, hcmp, ht5⟩
          · rw [hhead, hc] at hj
            exact absurd hj (by simp)
          · have : colIdx? t5.header "price" = some j0 := by rw [ht5]; exact hj0
            rw [hhead, this] at hj
            have hjj : j = j0 := by injection hj with hj'; omega
            subst hjj
            have hrt5 : r ∈ t5.rows := remove_outliers_subset h r hr
            rw [ht5] at hrt5
            have hk := (List.mem_filter.mp hrt5).2
            exact keepCell_bounds hk
        · intro j hj
          rcases remove_outliers_cases h with ⟨hc, rfl⟩ | ⟨j0, hj0, hcmp, hu⟩
          · rw [hc] at hj
            exact absurd hj (by simp)
          · have : colIdx? u.header "availability_365" = some j0 := by rw [hu]; exact hj0
            rw [this] at hj
            have hjj : j = j0 := by injection hj with hj'; omega
            subst hjj
            have hru : r ∈ t5.rows.filter (fun r => keepCell 0 365 (cellAt r j)) := by
              rw [hu] at hr; exact hr
            exact keepCell_bounds (List.mem_filter.mp hru).2
  · intro t col lo hi u h r hr hna
    rcases remove_outliers_cases h with ⟨hc, rfl⟩ | ⟨j, hj, hcmp, rfl⟩
    · exact hr
    · exact List.mem_filter.mpr ⟨hr, by rw [hna j hj]; rfl⟩

/-- Concrete input table for the trim witnesses: one in-bounds row, one
price outlier, one availability outlier, one all-missing row. -/
def T2c : Table :=
  ⟨["price", "availability_365"],
   [[Cell.num 5, Cell.num 10], [Cell.num 20000, Cell.num 5],
    [Cell.na, Cell.num 400], [Cell.na, Cell.na]]⟩

/-- Price-trimmed intermediate of `T2c`. -/
def T5c : Table :=
  ⟨["price", "availability_365"],
   [[Cell.num 5, Cell.num 10], [Cell.na, Cell.num 400], [Cell.na, Cell.na]]⟩

/-- Fully trimmed output of `T2c`. -/
def U2c : Table :=
  ⟨["price", "availability_365"], [[Cell.num 5, Cell.num 10], [Cell.na, Cell.na]]⟩

/-- C2 witness: the theorem applied to the concrete table `T2c`. -/
theorem c2_witness :
    (∀ r ∈ U2c.rows,
       (∀ j, colIdx? U2c.header "price" = some j →
          cellAt r j = Cell.na ∨ ∃ q, cellAt r j = Cell.num q ∧ 0 ≤ q ∧ q ≤ 10000) ∧
       (∀ j, colIdx? U2c.header "availability_365" = some j →
          cellAt r j = Cell.na ∨ ∃ q, cellAt r j = Cell.num q ∧ 0 ≤ q ∧ q ≤ 365)) ∧
    [Cell.na, Cell.num 400] ∈ T5c.rows :=
  ⟨c2_hard_bound_trim.1 T2c U2c (by rfl),
   c2_hard_bound_trim.2 T2c "price" 0 10000 T5c (by rfl)
     [Cell.na, Cell.num 400] (by decide)
     (fun j hj => by
        have hc : colIdx? T2c.header "price" = some 0 := by rfl
        rw [hc] at hj
        injection hj with hj'
        subst hj'
        rfl)⟩

/-! ### Sanity-check characterisation -/

/-- Pass condition of the min-bound assertion on one column, as a Boolean:
absent column passes, empty present set fails (NaN comparison), otherwise
the minimum must meet the bound. -/
def assertPasses (t : Table) (col : String) (lo : Rat) : Bool :=
  if col ∈ t.header then
    match minList (presentNums t col) with
    | none => false
    | some m => lo ≤ m
  else true

/-- Pass condition of the max-bound assertion on one column. -/
def assertPassesMax (t : Table) (col : String) (hi : Rat) : Bool :=
  if col ∈ t.header then
    match maxList (presentNums t col) with
    | none => false
    | some m => m ≤ hi
  else true

theorem assertMinGE_eq {t : Table} {col : String} {lo : Rat}
    (hn : colNumOrNA t col = true) :
    assertMinGE t col lo = Except.ok (assertPasses t col lo) := by
  unfold assertMinGE assertPasses
  by_cases hc : col ∈ t.header
  · rw [if_pos hc, if_pos hc, if_pos hn]
    cases minList (presentNums t col) <;> rfl
  · rw [if_neg hc, if_neg hc]

theorem assertMaxLE_eq {t : Table} {col : String} {hi : Rat}
    (hn : colNumOrNA t col = true) :
    assertMaxLE t col hi = Except.ok (assertPassesMax t col hi) := by
  unfold assertMaxLE assertPassesMax
  by_cases hc : col ∈ t.header
  · rw [if_pos hc, if_pos hc, if_pos hn]
    cases maxList (presentNums t col) <;> rfl
  · rw [if_neg hc, if_neg hc]

theorem sanity_checks_eq {t : Table}
    (h1 : colNumOrNA t "price" = true) (h2 : colNumOrNA t "number_of_reviews" = true)
    (h3 : colNumOrNA t "reviews_per_month" = true)
    (h4 : colNumOrNA t "availability_365" = true) :
    sanity_checks t = Except.ok
      (assertPasses t "price" 0 &&
       (assertPasses t "number_of_reviews" 0 &&
        (assertPasses t "reviews_per_month" 0 &&
         (assertPasses t "availability_365" 0 && assertPassesMax t "availability_365" 365)))) := by
  rw [sanity_checks, assertMinGE_eq h1, assertMinGE_eq h2, assertMinGE_eq h3,
    assertMinGE_eq h4, assertMaxLE_eq h4]
  cases assertPasses t "price" 0 <;>
    cases assertPasses t "number_of_reviews" 0 <;>
    cases assertPasses t "reviews_per_month" 0 <;>
    cases assertPasses t "availability_365" 0 <;>
    cases assertPassesMax t "availability_365" 365 <;> rfl

/-- Condition under which the min-bound assertion on `col` aborts: the
column is present and either has no present values at all (empty-series
minimum is NaN, which fails the comparison) or has a present value below
the bound. -/
def BadMin (t : Table) (col : String) (lo : Rat) : Prop :=
  col ∈ t.header ∧ (presentNums t col = [] ∨ ∃ q ∈ presentNums t col, q < lo)

/-- Condition under which the max-bound assertion on `col` aborts. -/
def BadMax (t : Table) (col : String) (hi : Rat) : Prop :=
  col ∈ t.header ∧ (presentNums t col = [] ∨ ∃ q ∈ presentNums t col, hi < q)

/-- Condition under which `sanity_checks` aborts the run. -/
def AbortCond (t : Table) : Prop :=
  BadMin t "price" 0 ∨ BadMin t "number_of_reviews" 0 ∨ BadMin t "reviews_per_month" 0 ∨
  BadMin t "availability_365" 0 ∨ BadMax t "availability_365" 365

theorem assertPasses_false_iff {t : Table} {col : String} {lo : Rat} :
    assertPasses t col lo = false ↔ BadMin t col lo := by
  unfold assertPasses BadMin
  by_cases hc : col ∈ t.header
  · rw [if_pos hc]
    cases hm : minList (presentNums t col) with
    | none => simp [hc, minList_eq_none.mp hm]
    | some m =>
        simp only [hc, true_and, decide_eq_false_iff_not, not_le]
        constructor
        · intro h
          exact Or.inr ⟨m, minList_mem hm, h⟩
        · rintro (hemp | ⟨q, hq, hlt⟩)
          · rw [hemp] at hm; simp [minList] at hm
          · exact lt_of_le_of_lt (minList_le hm q hq) hlt
  · simp [hc]

theorem assertPassesMax_false_iff {t : Table} {col : String} {hi : Rat} :
    assertPassesMax t col hi = false ↔ BadMax t col hi := by
  unfold assertPassesMax BadMax
  by_cases hc : col ∈ t.header
  · rw [if_pos hc]
    cases hm : maxList (presentNums t col) with
    | none => simp [hc, maxList_eq_none.mp hm]
    | some m =>
        simp only [hc, true_and, decide_eq_false_iff_not, not_le]
        constructor
        · intro h
          exact Or.inr ⟨m, maxList_mem hm, h⟩
        · rintro (hemp | ⟨q, hq, hlt⟩)
          · rw [hemp] at hm; simp [maxList] at hm
          · exact lt_of_lt_of_le hlt (maxList_ge hm q hq)
  · simp [hc]

/-- C4 counterexample: a table whose price column is present but has no
present values.  The claim says a column with no present values does not
trigger an abort, but `dropna().min()` on an empty series is NaN, the
comparison `NaN >= 0` is False, and the assertion fires. -/
theorem c4_counterexample :
    sanity_checks ⟨["price"], [[Cell.na]]⟩ = Except.ok false ∧
    presentNums ⟨["price"], [[Cell.na]]⟩ "price" = [] :=
  ⟨by rfl, by rfl⟩

/-- C4 (amended): for numeric-or-missing checked columns, the sanity check
aborts iff some checked column is present and either has a present value
violating its bound or has no present values at all; absent columns never
abort; and the check drops no rows — the pipeline output is exactly the
pre-sanity table. -/
theorem c4_sanity_abort_iff :
    (∀ t : Table, colNumOrNA t "price" = true → colNumOrNA t "number_of_reviews" = true →
       colNumOrNA t "reviews_per_month" = true → colNumOrNA t "availability_365" = true →
       (sanity_checks t = Except.ok false ↔ AbortCond t)) ∧
    (∀ t u, mainPipeline t = Except.ok u → cleanStepsPreSanity t = Except.ok u) := by
  constructor
  · intro t h1 h2 h3 h4
    rw [sanity_checks_eq h1 h2 h3 h4]
    have hconj : ∀ b1 b2 b3 b4 b5 : Bool,
        (b1 && (b2 && (b3 && (b4 && b5)))) = false ↔
        (b1 = false ∨ b2 = false ∨ b3 = false ∨ b4 = false ∨ b5 = false) := by
      intro b1 b2 b3 b4 b5
      cases b1 <;> cases b2 <;> cases b3 <;> cases b4 <;> cases b5 <;> simp
    constructor
    · intro h
      have hb := (Except.ok.injEq _ _).mp h
      rcases (hconj _ _ _ _ _).mp hb with h | h | h | h | h
      · exact Or.inl (assertPasses_false_iff.mp h)
      · exact Or.inr (Or.inl (assertPasses_false_iff.mp h))
      · exact Or.inr (Or.inr (Or.inl (assertPasses_false_iff.mp h)))
      · exact Or.inr (Or.inr (Or.inr (Or.inl (assertPasses_false_iff.mp h))))
      · exact Or.inr (Or.inr (Or.inr (Or.inr (assertPassesMax_false_iff.mp h))))
    · intro h
      have hb : (assertPasses t "price" 0 &&
          (assertPasses t "number_of_reviews" 0 &&
           (assertPasses t "reviews_per_month" 0 &&
            (assertPasses t "availability_365" 0 &&
             assertPassesMax t "availability_365" 365)))) = false := by
        apply (hconj _ _ _ _ _).mpr
        rcases h with h | h | h | h | h
        · exact Or.inl (assertPasses_false_iff.mpr h)
        · exact Or.inr (Or.inl (assertPasses_false_iff.mpr h))
        · exact Or.inr (Or.inr (Or.inl (assertPasses_false_iff.mpr h)))
        · exact Or.inr (Or.inr (Or.inr (Or.inl (assertPasses_false_iff.mpr h))))
        · exact Or.inr (Or.inr (Or.inr (Or.inr (assertPassesMax_false_iff.mpr h))))
      rw [hb]
  · intro t u h
    rw [mainPipeline] at h
    cases hs : cleanStepsPreSanity t with
    | error e => rw [hs] at h; simp [bind, Except.bind] at h
    | ok v =>
        rw [hs] at h
        simp only [bind, Except.bind] at h
        cases hsan : sanity_checks v with
        | error e => rw [hsan] at h; simp at h
        | ok b =>
            rw [hsan] at h
            cases b with
            | true =>
                simp [pure, Except.pure] at h
                subst h
                rfl
            | false => simp at h

/-- Table with a negative present price, for the C4 witness. -/
def TnegPrice : Table := ⟨["price"], [[Cell.num (-3)]]⟩

/-- C4 witness: the amended theorem applied at a table with a negative
price, and at the concrete pipeline run on `T2c`. -/
theorem c4_witness :
    (sanity_checks TnegPrice = Except.ok false ↔ AbortCond TnegPrice) ∧
    cleanStepsPreSanity T2c = Except.ok U2c :=
  ⟨c4_sanity_abort_iff.1 TnegPrice (by decide)
     (by decide) (by decide)
     (by decide),
   c4_sanity_abort_iff.2 T2c U2c (by rfl)⟩

/-! ### C10: the trims make the price/availability assertions pass -/

theorem trimmed_col_ok {t t' u : Table} {col : String} {lo hi : Rat}
    (htrim : remove_outliers_bounds t col lo hi = Except.ok t')
    (hsub : ∀ r ∈ u.rows, r ∈ t'.rows) (hhead : u.header = t'.header) :
    (∀ q ∈ presentNums u col, lo ≤ q ∧ q ≤ hi) ∧
    (col ∈ u.header → colNumOrNA u col = true) := by
  rcases remove_outliers_cases htrim with ⟨hc, rfl⟩ | ⟨j, hj, hcmp, rfl⟩
  · constructor
    · intro q hq
      rw [mem_presentNums] at hq
      obtain ⟨j, hj, _⟩ := hq
      rw [hhead, hc] at hj
      exact absurd hj (by simp)
    · intro hcm
      rw [hhead] at hcm
      exact absurd (colIdx?_isSome.mpr hcm) (by simp [hc])
  · have hju : colIdx? u.header col = some j := by rw [hhead]; exact hj
    constructor
    · intro q hq
      rw [mem_presentNums] at hq
      obtain ⟨j', hj', r, hr, hcell⟩ := hq
      rw [hju] at hj'
      have hjj : j' = j := by injection hj' with h'; omega
      subst hjj
      have hrt : r ∈ t.rows.filter (fun r => keepCell lo hi (cellAt r j')) := hsub r hr
      have hk := (List.mem_filter.mp hrt).2
      rcases keepCell_bounds hk with hna | ⟨q', hq', hb1, hb2⟩
      · rw [hcell] at hna; exact absurd hna (by simp)
      · rw [hcell] at hq'
        have : q = q' := by injection hq'
        subst this
        exact ⟨hb1, hb2⟩
    · intro _
      simp only [colNumOrNA, hju, List.all_eq_true]
      intro r hr
      have hrt : r ∈ t.rows.filter (fun r => keepCell lo hi (cellAt r j)) := hsub r hr
      exact keepCell_cmpOK (List.mem_filter.mp hrt).2

theorem assertMinGE_ok_of_bounds {u : Table} {col : String} {lo : Rat}
    (hne : presentNums u col ≠ []) (hball : ∀ q ∈ presentNums u col, lo ≤ q)
    (hnum : col ∈ u.header → colNumOrNA u col = true) :
    assertMinGE u col lo = Except.ok true := by
  have hcm : col ∈ u.header := presentNums_ne_nil_mem hne
  rw [assertMinGE, if_pos hcm, if_pos (hnum hcm)]
  cases hm : minList (presentNums u col) with
  | none => exact absurd (minList_eq_none.mp hm) hne
  | some m =>
      have := hball m (minList_mem hm)
      simp [this]

theorem assertMaxLE_ok_of_bounds {u : Table} {col : String} {hi : Rat}
    (hne : presentNums u col ≠ []) (hball : ∀ q ∈ presentNums u col, q ≤ hi)
    (hnum : col ∈ u.header → colNumOrNA u col = true) :
    assertMaxLE u col hi = Except.ok true := by
  have hcm : col ∈ u.header := presentNums_ne_nil_mem hne
  rw [assertMaxLE, if_pos hcm, if_pos (hnum hcm)]
  cases hm : maxList (presentNums u col) with
  | none => exact absurd (maxList_eq_none.mp hm) hne
  | some m =>
      have := hball m (maxList_mem hm)
      simp [this]

/-- C10: on any table produced by the two hard-bound trims, if the price
column has a present value then the price assertion of the sanity check
passes, and if availability_365 has a present value then both availability
assertions pass — those abort branches are unreachable after trimming. -/
theorem c10_trimmed_assertions_pass :
    ∀ t u, hardBoundTrims t = Except.ok u →
      (presentNums u "price" ≠ [] → assertMinGE u "price" 0 = Except.ok true) ∧
      (presentNums u "availability_365" ≠ [] →
         assertMinGE u "availability_365" 0 = Except.ok true ∧
         assertMaxLE u "availability_365" 365 = Except.ok true) := by
  intro t u h
  rw [hardBoundTrims] at h
  cases h5 : remove_outliers_bounds t "price" 0 10000 with
  | error e => rw [h5] at h; simp [bind, Except.bind] at h
  | ok t5 =>
      rw [h5] at h
      simp only [bind, Except.bind] at h
      obtain ⟨hbp, hnp⟩ :=
        trimmed_col_ok h5 (remove_outliers_subset h) (remove_outliers_header h)
      obtain ⟨hba, hna⟩ := trimmed_col_ok h (fun r hr => hr) rfl
      refine ⟨fun hne => ?_, fun hne => ⟨?_, ?_⟩⟩
      · exact assertMinGE_ok_of_bounds hne (fun q hq => (hbp q hq).1) hnp
      · exact assertMinGE_ok_of_bounds hne (fun q hq => (hba q hq).1) hna
      · exact assertMaxLE_ok_of_bounds hne (fun q hq => (hba q hq).2) hna

/-- C10 witness: the theorem applied to the concrete trimmed table `U2c`,
with the non-emptiness hypotheses discharged. -/
theorem c10_witness :
    assertMinGE U2c "price" 0 = Except.ok true ∧
    assertMinGE U2c "availability_365" 0 = Except.ok true ∧
    assertMaxLE U2c "availability_365" 365 = Except.ok true :=
  ⟨(c10_trimmed_assertions_pass T2c U2c (by rfl)).1
     (by decide),
   ((c10_trimmed_assertions_pass T2c U2c (by rfl)).2
     (by decide)).1,
   ((c10_trimmed_assertions_pass T2c U2c (by rfl)).2
     (by decide)).2⟩

/-! ### C6: group averages -/

theorem roundHalfEven_ge {x : Rat} : ⌊x⌋ ≤ roundHalfEven x := by
  unfold roundHalfEven
  split_ifs <;> omega

theorem roundHalfEven_le {x : Rat} : roundHalfEven x ≤ ⌊x⌋ + 1 := by
  unfold roundHalfEven
  split_ifs <;> omega

theorem roundHalfEven_mono {x y : Rat} (h : x ≤ y) :
    roundHalfEven x ≤ roundHalfEven y := by
  rcases lt_or_le ⌊x⌋ ⌊y⌋ with hf | hf
  · calc roundHalfEven x ≤ ⌊x⌋ + 1 := roundHalfEven_le
      _ ≤ ⌊y⌋ := by omega
      _ ≤ roundHalfEven y := roundHalfEven_ge
  · have hfe : ⌊x⌋ = ⌊y⌋ := le_antisymm (Int.floor_le_floor h) hf
    have hr : x - (⌊x⌋ : Rat) ≤ y - (⌊y⌋ : Rat) := by
      rw [hfe]
      exact sub_le_sub_right h _
    rw [roundHalfEven_eq x, roundHalfEven_eq y]
    rw [hfe] at *
    split_ifs <;> first | omega | linarith

theorem round2_mono {x y : Rat} (h : x ≤ y) : round2 x ≤ round2 y := by
  rw [round2_eq, round2_eq]
  have h100 : x * 100 ≤ y * 100 := by linarith
  have := roundHalfEven_mono h100
  have hc : ((roundHalfEven (x * 100) : Rat)) ≤ ((roundHalfEven (y * 100) : Rat)) := by
    exact_mod_cast this
  linarith

theorem valDesc_map_round2 {a b : String × Option Rat} (h : valDesc a b) :
    valDesc (a.1, a.2.map round2) (b.1, b.2.map round2) := by
  obtain ⟨a1, _ | x⟩ := a <;> obtain ⟨b1, _ | y⟩ := b <;>
    simp only [valDesc, Option.map_none, Option.map_some] at * <;>
    first | trivial | exact round2_mono h

theorem mem_map_key {α β : Type} (f : α → β) (keys : List α) (g : α) (μ : β) :
    (g, μ) ∈ keys.map (fun k => (k, f k)) ↔ g ∈ keys ∧ μ = f g := by
  rw [List.mem_map]
  constructor
  · rintro ⟨k, hk, hkeq⟩
    obtain ⟨h1, h2⟩ := Prod.mk.injEq .. |>.mp hkeq
    exact ⟨h1 ▸ hk, h1 ▸ h2.symm⟩
  · rintro ⟨hg, rfl⟩
    exact ⟨g, hg, rfl⟩

/-- C6: for every table with the neighbourhood_group and price columns, the
group-average computation lists exactly the present group keys, each with
the rounded (2 decimals, half-even) arithmetic mean of its present price
values, sorted descending by value; on the spec's example rows the result
is [B ↦ 30.0, A ↦ 15.0]. -/
theorem c6_avg_price_by_group :
    (∀ t : Table, "neighbourhood_group" ∈ t.header → "price" ∈ t.header →
       List.Sorted valDesc (avg_price_by_neighbourhood_group t) ∧
       (∀ g μ, ((g, μ) ∈ avg_price_by_neighbourhood_group t ↔
          g ∈ presentStrs t "neighbourhood_group" ∧ μ = (groupMean t g).map round2))) ∧
    avg_price_by_neighbourhood_group
      ⟨["neighbourhood_group", "price"],
       [[Cell.str "A", Cell.num 10], [Cell.str "A", Cell.num 20],
        [Cell.str "B", Cell.num 30]]⟩ = [("B", some 30), ("A", some 15)] := by
  constructor
  · intro t hng hp
    have hcond : "neighbourhood_group" ∈ t.header ∧ "price" ∈ t.header := ⟨hng, hp⟩
    rw [avg_price_by_neighbourhood_group, if_pos hcond]
    constructor
    · exact List.Pairwise.map _ (fun a b => valDesc_map_round2)
        (List.sorted_insertionSort valDesc _)
    · intro g μ
      rw [avgPairsUnrounded, List.mem_map]
      constructor
      · rintro ⟨p, hp2, hpeq⟩
        have hpm : p ∈ (presentStrs t "neighbourhood_group").dedup.map
            (fun k => (k, groupMean t k)) :=
          (List.perm_insertionSort valDesc _).mem_iff.mp hp2
        obtain ⟨hg, hv⟩ := (mem_map_key _ _ p.1 p.2).mp hpm
        obtain ⟨h1, h2⟩ := Prod.mk.injEq .. |>.mp hpeq
        refine ⟨List.mem_dedup.mp (h1 ▸ hg), ?_⟩
        rw [← h2, hv, h1]
      · rintro ⟨hg, rfl⟩
        refine ⟨(g, groupMean t g), ?_, rfl⟩
        apply (List.perm_insertionSort valDesc _).mem_iff.mpr
        exact (mem_map_key _ _ g (groupMean t g)).mpr ⟨List.mem_dedup.mpr hg, rfl⟩
  · decide

/-- The spec's group-average example table. -/
def T6c : Table :=
  ⟨["neighbourhood_group", "price"],
   [[Cell.str "A", Cell.num 10], [Cell.str "A", Cell.num 20], [Cell.str "B", Cell.num 30]]⟩

/-- C6 witness: the general part of the theorem applied to the example
table. -/
theorem c6_witness :
    List.Sorted valDesc (avg_price_by_neighbourhood_group T6c) ∧
    (∀ g μ, ((g, μ) ∈ avg_price_by_neighbourhood_group T6c ↔
       g ∈ presentStrs T6c "neighbourhood_group" ∧ μ = (groupMean T6c g).map round2)) :=
  c6_avg_price_by_group.1 T6c (by decide) (by decide)

/-! ### C7: top hosts -/

/-- The spec's top-hosts example: host counts H1 ↦ 3, H2 ↦ 5, H3 ↦ 1. -/
def T7c : Table :=
  ⟨["host_id", "host_name", "id"],
   [[Cell.num 1, Cell.str "H1", Cell.num 101],
    [Cell.num 2, Cell.str "H2", Cell.num 102],
    [Cell.num 2, Cell.str "H2", Cell.num 103],
    [Cell.num 1, Cell.str "H1", Cell.num 104],
    [Cell.num 2, Cell.str "H2", Cell.num 105],
    [Cell.num 3, Cell.str "H3", Cell.num 106],
    [Cell.num 2, Cell.str "H2", Cell.num 107],
    [Cell.num 1, Cell.str "H1", Cell.num 108],
    [Cell.num 2, Cell.str "H2", Cell.num 109]]⟩

/-- C7: for every table with host_id, host_name and id columns, the
top-hosts computation truncates to the first `n` entries (default 10) of
the full count list, which is sorted descending and contains exactly the
present (host_id, host_name) key pairs with their non-missing-id listing
counts; on the spec's example the top 2 are [H2 ↦ 5, H1 ↦ 3]. -/
theorem c7_top_hosts :
    (∀ (t : Table) (n : Nat), "host_id" ∈ t.header → "host_name" ∈ t.header →
       "id" ∈ t.header →
       top_hosts t n = (topHostsAll t).take n ∧
       List.Sorted cntDesc (topHostsAll t) ∧
       (∀ p c, ((p, c) ∈ topHostsAll t ↔ p ∈ presentKeyPairs t ∧ c = countHost t p))) ∧
    (∀ t : Table, top_hosts t = top_hosts t 10) ∧
    top_hosts T7c 2 =
      [((Cell.num 2, Cell.str "H2"), 5), ((Cell.num 1, Cell.str "H1"), 3)] := by
  refine ⟨?_, fun t => rfl, by decide⟩
  intro t n h1 h2 h3
  have hcond : "host_id" ∈ t.header ∧ "host_name" ∈ t.header ∧ "id" ∈ t.header :=
    ⟨h1, h2, h3⟩
  refine ⟨by rw [top_hosts, if_pos hcond], List.sorted_insertionSort cntDesc _, ?_⟩
  intro p c
  rw [topHostsAll, (List.perm_insertionSort cntDesc _).mem_iff, mem_map_key]
  rw [List.mem_dedup]

/-- C7 witness: the general part of the theorem applied to the example
table with n = 2. -/
theorem c7_witness :
    top_hosts T7c 2 = (topHostsAll T7c).take 2 ∧
    List.Sorted cntDesc (topHostsAll T7c) ∧
    (∀ p c, ((p, c) ∈ topHostsAll T7c ↔ p ∈ presentKeyPairs T7c ∧ c = countHost T7c p)) :=
  c7_top_hosts.1 T7c 2 (by decide) (by decide) (by decide)

/-! ### C9: the per-step cleaning functions do not mutate their argument -/

theorem getRef_append_lt {σ : List Table} {t : Table} {r : Nat} (h : r < σ.length) :
    getRef (σ ++ [t]) r = getRef σ r := by
  unfold getRef
  rw [List.getD_eq_getElem?_getD, List.getD_eq_getElem?_getD, List.getElem?_append_left h]

theorem getRef_set_ne {σ : List Table} {i r : Nat} {t : Table} (h : r ≠ i) :
    getRef (σ.set i t) r = getRef σ r := by
  unfold getRef
  rw [List.getD_eq_getElem?_getD, List.getD_eq_getElem?_getD,
    List.getElem?_set_ne (fun he => h he.symm)]

theorem getRef_foldl {α : Type} (step : List Table → α → List Table) (r : Nat)
    (hstep : ∀ s a, getRef (step s a) r = getRef s r) :
    ∀ (cols : List α) (σ : List Table), getRef (cols.foldl step σ) r = getRef σ r := by
  intro cols
  induction cols with
  | nil => intro σ; rfl
  | cons c cs ih => intro σ; rw [List.foldl_cons, ih, hstep]

/-- C9: each per-step cleaning function leaves the DataFrame object behind
its argument reference unchanged — the functions copy before mutating
(normalize, currency, dates, fill) or build a fresh filtered object without
mutating (the trim) — and the copying functions return a fresh reference
distinct from the argument. -/
theorem c9_steps_do_not_mutate_argument :
    ∀ (σ : List Table) (r : Nat), r < σ.length →
      (getRef (normalize_columnsImpl σ r).1 r = getRef σ r ∧
        (normalize_columnsImpl σ r).2 ≠ r) ∧
      (∀ cols, getRef (clean_currency_colsImpl σ r cols).1 r = getRef σ r ∧
        (clean_currency_colsImpl σ r cols).2 ≠ r) ∧
      (∀ cols, getRef (parse_date_colsImpl σ r cols).1 r = getRef σ r ∧
        (parse_date_colsImpl σ r cols).2 ≠ r) ∧
      (∀ defaults, getRef (fill_missing_valuesImpl σ r defaults).1 r = getRef σ r ∧
        (fill_missing_valuesImpl σ r defaults).2 ≠ r) ∧
      (∀ col lo hi σ2 r2, remove_outliers_boundsImpl σ r col lo hi = Except.ok (σ2, r2) →
        getRef σ2 r = getRef σ r) := by
  intro σ r hr
  have hne : r ≠ σ.length := Nat.ne_of_lt hr
  refine ⟨⟨?_, ?_⟩, fun cols => ⟨?_, ?_⟩, fun cols => ⟨?_, ?_⟩, fun defaults => ⟨?_, ?_⟩, ?_⟩
  · simp only [normalize_columnsImpl, allocT, setRef]
    rw [getRef_set_ne hne, getRef_append_lt hr]
  · simp only [normalize_columnsImpl, allocT]
    omega
  · simp only [clean_currency_colsImpl, allocT, setRef]
    refine Eq.trans (getRef_foldl _ r ?_ cols _) (getRef_append_lt hr)
    intro s a
    by_cases hc : a ∈ (getRef s σ.length).header
    · rw [if_pos hc, getRef_set_ne hne]
    · rw [if_neg hc]
  · simp only [clean_currency_colsImpl, allocT]
    omega
  · simp only [parse_date_colsImpl, allocT, setRef]
    refine Eq.trans (getRef_foldl _ r ?_ cols _) (getRef_append_lt hr)
    intro s a
    by_cases hc : a ∈ (getRef s σ.length).header
    · rw [if_pos hc, getRef_set_ne hne]
    · rw [if_neg hc]
  · simp only [parse_date_colsImpl, allocT]
    omega
  · simp only [fill_missing_valuesImpl, allocT, setRef]
    refine Eq.trans (getRef_foldl _ r ?_ defaults _) (getRef_append_lt hr)
    intro s a
    by_cases hc : a.1 ∈ (getRef s σ.length).header
    · rw [if_pos hc, getRef_set_ne hne]
    · rw [if_neg hc]
  · simp only [fill_missing_valuesImpl, allocT]
    omega
  · intro col lo hi σ2 r2 h
    rw [remove_outliers_boundsImpl] at h
    cases hc : colIdx? (getRef σ r).header col with
    | none =>
        rw [hc] at h
        have : σ = σ2 := by injection h with h'; exact congrArg Prod.fst h'
        rw [← this]
    | some j =>
        rw [hc] at h
        replace h : (if (getRef σ r).rows.all (fun rw => cmpOK (cellAt rw j)) then
            Except.ok (allocT σ
              { header := (getRef σ r).header,
                rows := (getRef σ r).rows.filter (fun rw => keepCell lo hi (cellAt rw j)) })
          else (Except.error "TypeError" : Except String (List Table × Nat))) =
            Except.ok (σ2, r2) := h
        by_cases hall : (getRef σ r).rows.all (fun rw => cmpOK (cellAt rw j)) = true
        · rw [if_pos hall] at h
          simp only [allocT] at h
          have hσ : σ ++ [(⟨(getRef σ r).header,
              List.filter (fun rw => keepCell lo hi (cellAt rw j)) (getRef σ r).rows⟩ : Table)] =
              σ2 := by
            injection h with h'
            exact congrArg Prod.fst h'
          rw [← hσ, getRef_append_lt hr]
        · rw [if_neg hall] at h
          exact absurd h (by simp)

/-- C9 witness: the frame statements applied at a concrete one-object store. -/
theorem c9_witness :
    getRef (normalize_columnsImpl [T2c] 0).1 0 = getRef [T2c] 0 ∧
    getRef (clean_currency_colsImpl [T2c] 0 ["price", "service_fee"]).1 0 = getRef [T2c] 0 ∧
    getRef (parse_date_colsImpl [T2c] 0 ["last_review"]).1 0 = getRef [T2c] 0 ∧
    getRef (fill_missing_valuesImpl [T2c] 0
      [("reviews_per_month", Cell.num 0), ("host_identity_verified", Cell.str "unknown")]).1 0 =
      getRef [T2c] 0 ∧
    getRef [T2c, T5c] 0 = getRef [T2c] 0 :=
  ⟨(c9_steps_do_not_mutate_argument [T2c] 0 (by decide)).1.1,
   ((c9_steps_do_not_mutate_argument [T2c] 0 (by decide)).2.1 ["price", "service_fee"]).1,
   ((c9_steps_do_not_mutate_argument [T2c] 0 (by decide)).2.2.1 ["last_review"]).1,
   ((c9_steps_do_not_mutate_argument [T2c] 0 (by decide)).2.2.2.1
     [("reviews_per_month", Cell.num 0), ("host_identity_verified", Cell.str "unknown")]).1,
   (c9_steps_do_not_mutate_argument [T2c] 0 (by decide)).2.2.2.2 "price" 0 10000
     [T2c, T5c] 1 (by rfl)⟩

/-! ### Digit and character facts for the parser/printer round trip -/

theorem charOfNat_toNat {n : Nat} (h : n < 55296) : (Char.ofNat n).toNat = n := by
  have hv : n.isValidChar := Or.inl h
  simp [Char.ofNat, hv, Char.ofNatAux, Char.toNat, UInt32.toNat, BitVec.toNat_ofNatLt]

/-- Every character list consisting of ASCII digits. -/
def AllDigits (l : List Char) : Prop := ∀ c ∈ l, isDigitCh c = true

instance (l : List Char) : Decidable (AllDigits l) :=
  inferInstanceAs (Decidable (∀ c ∈ l, isDigitCh c = true))

theorem isDigitCh_ofNat {r : Nat} (h : r < 10) :
    isDigitCh (Char.ofNat (48 + r)) = true := by
  have := charOfNat_toNat (n := 48 + r) (by omega)
  simp [isDigitCh, this]
  omega

theorem digitVal_ofNat {r : Nat} (h : r < 10) : digitVal (Char.ofNat (48 + r)) = r := by
  have := charOfNat_toNat (n := 48 + r) (by omega)
  simp [digitVal, this]

theorem natDigitsRev_digits : ∀ n, AllDigits (natDigitsRev n) := by
  intro n
  induction n using Nat.strong_induction_on with
  | _ n ih =>
      rw [natDigitsRev_eq]
      by_cases hz : n = 0
      · simp [hz, AllDigits]
      · rw [if_neg hz]
        intro c hc
        rcases List.mem_cons.mp hc with rfl | hc
        · exact isDigitCh_ofNat (Nat.mod_lt n (by omega))
        · exact ih (n / 10) (Nat.div_lt_self (Nat.pos_of_ne_zero hz) (by omega)) c hc

theorem natDigits_digits (n : Nat) : AllDigits (natDigits n) := by
  rw [natDigits]
  by_cases hz : n = 0
  · simp [hz, AllDigits]
    rfl
  · rw [if_neg hz]
    intro c hc
    exact natDigitsRev_digits n c (List.mem_reverse.mp hc)

theorem digitsVal_append_one (l : List Char) (c : Char) :
    digitsVal (l ++ [c]) = 10 * digitsVal l + digitVal c := by
  simp [digitsVal, List.foldl_append]
  ring

theorem digitsVal_natDigitsRev : ∀ n, digitsVal (natDigitsRev n).reverse = n := by
  intro n
  induction n using Nat.strong_induction_on with
  | _ n ih =>
      rw [natDigitsRev_eq]
      by_cases hz : n = 0
      · simp [hz, digitsVal]
      · rw [if_neg hz]
        rw [List.reverse_cons, digitsVal_append_one,
          ih (n / 10) (Nat.div_lt_self (Nat.pos_of_ne_zero hz) (by omega)),
          digitVal_ofNat (Nat.mod_lt n (by omega))]
        omega

theorem digitsVal_natDigits (n : Nat) : digitsVal (natDigits n) = n := by
  rw [natDigits]
  by_cases hz : n = 0
  · simp [hz, digitsVal, digitVal]
  · rw [if_neg hz]
    exact digitsVal_natDigitsRev n

theorem natDigitsRev_length_le : ∀ k n, n < 10 ^ k → (natDigitsRev n).length ≤ k := by
  intro k
  induction k with
  | zero => intro n h; interval_cases n; simp [natDigitsRev, natDigitsRevAux]
  | succ k ih =>
      intro n h
      rw [natDigitsRev_eq]
      by_cases hz : n = 0
      · simp [hz]
      · rw [if_neg hz]
        simp only [List.length_cons]
        have : n / 10 < 10 ^ k := by
          rw [Nat.div_lt_iff_lt_mul (by omega)]
          calc n < 10 ^ (k + 1) := h
            _ = 10 ^ k * 10 := by ring
        exact Nat.succ_le_succ (ih (n / 10) this)

theorem digitsVal_replicate_zero (j : Nat) (l : List Char) :
    digitsVal (List.replicate j '0' ++ l) = digitsVal l := by
  induction j with
  | zero => simp
  | succ j ih =>
      rw [List.replicate_succ, List.cons_append]
      simp only [digitsVal, List.foldl_cons] at *
      have h0 : digitVal '0' = 0 := rfl
      rw [h0]
      simpa using ih

theorem natDigits_ne_nil (n : Nat) : natDigits n ≠ [] := by
  rw [natDigits]
  by_cases hz : n = 0
  · simp [hz]
  · rw [if_neg hz]
    intro h
    have := congrArg List.length h
    rw [List.length_reverse] at this
    rw [natDigitsRev_eq, if_neg hz] at this
    simp at this

theorem dropWhile_eq_self_of {p : Char → Bool} {l : List Char}
    (h : ∀ c ∈ l, p c = false) : l.dropWhile p = l := by
  cases l with
  | nil => rfl
  | cons c rest => rw [List.dropWhile_cons, if_neg (by simp [h c (by simp)])]

theorem pyStripList_eq_self {l : List Char} (h : ∀ c ∈ l, isPySpace c = false) :
    pyStripList l = l := by
  rw [pyStripList, dropWhile_eq_self_of h,
    dropWhile_eq_self_of (fun c hc => h c (List.mem_reverse.mp hc)), List.reverse_reverse]

theorem takeWhile_all_eq {p : Char → Bool} {l : List Char}
    (h : ∀ c ∈ l, p c = true) : l.takeWhile p = l ∧ l.dropWhile p = [] := by
  induction l with
  | nil => simp
  | cons c rest ih =>
      have hc : p c = true := h c (by simp)
      obtain ⟨h1, h2⟩ := ih (fun x hx => h x (by simp [hx]))
      rw [List.takeWhile_cons, List.dropWhile_cons]
      simp [hc, h1, h2]

theorem takeWhile_append_stop {p : Char → Bool} {l1 l2 : List Char} {c : Char}
    (h1 : ∀ x ∈ l1, p x = true) (hc : p c = false) :
    (l1 ++ c :: l2).takeWhile p = l1 ∧ (l1 ++ c :: l2).dropWhile p = c :: l2 := by
  induction l1 with
  | nil => simp [List.takeWhile_cons, List.dropWhile_cons, hc]
  | cons a rest ih =>
      have ha : p a = true := h1 a (by simp)
      obtain ⟨ih1, ih2⟩ := ih (fun x hx => h1 x (by simp [hx]))
      rw [List.cons_append, List.takeWhile_cons, List.dropWhile_cons]
      simp [ha, ih1, ih2]

/-! ### Smooth denominators: factoring out 2 and 5 -/

theorem maxPow_remPow_spec (p : Nat) (hp : 2 ≤ p) :
    ∀ n, 0 < n → n = p ^ maxPow p n * remPow p n ∧ ¬ p ∣ remPow p n := by
  intro n
  induction n using Nat.strong_induction_on with
  | _ n ih =>
      intro hn
      rw [maxPow_eq, remPow_eq]
      by_cases hcond : 2 ≤ p ∧ 0 < n ∧ n % p = 0
      · rw [if_pos hcond, if_pos hcond]
        have hdvd : p ∣ n := Nat.dvd_of_mod_eq_zero hcond.2.2
        have hlt : n / p < n := Nat.div_lt_self hn (by omega)
        have hpos : 0 < n / p := Nat.div_pos (Nat.le_of_dvd hn hdvd) (by omega)
        obtain ⟨heq, hnd⟩ := ih (n / p) hlt hpos
        constructor
        · calc n = p * (n / p) := (Nat.mul_div_cancel' hdvd).symm
            _ = p * (p ^ maxPow p (n / p) * remPow p (n / p)) := by rw [← heq]
            _ = p ^ (1 + maxPow p (n / p)) * remPow p (n / p) := by
                rw [pow_add, pow_one]; ring
        · exact hnd
      · rw [if_neg hcond, if_neg hcond]
        have hmod : n % p ≠ 0 := by
          intro hm
          exact hcond ⟨hp, hn, hm⟩
        constructor
        · simp
        · intro hdvd
          exact hmod (Nat.eq_zero_of_dvd_of_lt hdvd |> fun _ => Nat.mod_eq_zero_of_dvd hdvd)

theorem den_smooth {d : Nat} (hd : 0 < d) {L : Nat} (h : d ∣ 10 ^ L) :
    d = 2 ^ maxPow 2 d * 5 ^ maxPow 5 (remPow 2 d) := by
  obtain ⟨h2eq, h2nd⟩ := maxPow_remPow_spec 2 (by norm_num) d hd
  have hr0 : 0 < remPow 2 d := by
    rcases Nat.eq_zero_or_pos (remPow 2 d) with hz | hpos
    · rw [hz, mul_zero] at h2eq; omega
    · exact hpos
  obtain ⟨h5eq, h5nd⟩ := maxPow_remPow_spec 5 (by norm_num) (remPow 2 d) hr0
  have hrd : remPow 2 d ∣ 10 ^ L :=
    dvd_trans ⟨2 ^ maxPow 2 d, h2eq.trans (mul_comm _ _)⟩ h
  have h10 : (10 : Nat) ^ L = 2 ^ L * 5 ^ L := by
    rw [show (10 : Nat) = 2 * 5 by norm_num, mul_pow]
  have hcop2 : Nat.Coprime (remPow 2 d) (2 ^ L) :=
    Nat.Coprime.pow_right L
      (((Nat.prime_two.coprime_iff_not_dvd).mpr h2nd).symm)
  have hr5 : remPow 2 d ∣ 5 ^ L := by
    rw [h10] at hrd
    exact hcop2.dvd_of_dvd_mul_left hrd
  have hs5 : remPow 5 (remPow 2 d) ∣ 5 ^ L :=
    dvd_trans ⟨5 ^ maxPow 5 (remPow 2 d), h5eq.trans (mul_comm _ _)⟩ hr5
  have hcop5 : Nat.Coprime (remPow 5 (remPow 2 d)) (5 ^ L) :=
    Nat.Coprime.pow_right L
      ((((by norm_num : Nat.Prime 5).coprime_iff_not_dvd).mpr h5nd).symm)
  have hs1 : remPow 5 (remPow 2 d) = 1 := hcop5.eq_one_of_dvd hs5
  calc d = 2 ^ maxPow 2 d * remPow 2 d := h2eq
    _ = 2 ^ maxPow 2 d * (5 ^ maxPow 5 (remPow 2 d) * remPow 5 (remPow 2 d)) := by
        rw [← h5eq]
    _ = 2 ^ maxPow 2 d * 5 ^ maxPow 5 (remPow 2 d) := by rw [hs1, mul_one]

theorem den_dvd_10_max {d : Nat} (hd : 0 < d) {L : Nat} (h : d ∣ 10 ^ L) :
    d ∣ 10 ^ max (maxPow 2 d) (maxPow 5 (remPow 2 d)) := by
  have h10 : (10 : Nat) ^ max (maxPow 2 d) (maxPow 5 (remPow 2 d)) =
      2 ^ max (maxPow 2 d) (maxPow 5 (remPow 2 d)) *
      5 ^ max (maxPow 2 d) (maxPow 5 (remPow 2 d)) := by
    rw [show (10 : Nat) = 2 * 5 by norm_num, mul_pow]
  rw [h10]
  conv_lhs => rw [den_smooth hd h]
  exact mul_dvd_mul (pow_dvd_pow 2 (le_max_left _ _)) (pow_dvd_pow 5 (le_max_right _ _))

theorem den_dvd_pow10 {q : Rat} {z : Int} {L : Nat}
    (h : q = (z : Rat) / (10 : Rat) ^ L) : (q.den : Nat) ∣ 10 ^ L := by
  have hq : q = Rat.divInt z ((10 : Int) ^ L) := by
    rw [Rat.divInt_eq_div, h]
    push_cast
    ring
  have := Rat.den_dvd z ((10 : Int) ^ L)
  rw [← hq] at this
  have h2 : ((q.den : Int)) ∣ (((10 ^ L : Nat) : Int)) := by
    push_cast
    exact this
  exact_mod_cast h2

/-! ### Character class facts -/

theorem toNat_of_eq {c d : Char} (h : c = d) : c.toNat = d.toNat := congrArg Char.toNat h

theorem isDigitCh_toNat {c : Char} (h : isDigitCh c = true) :
    48 ≤ c.toNat ∧ c.toNat ≤ 57 := by
  simp only [isDigitCh, Bool.and_eq_true, decide_eq_true_eq] at h
  exact h

theorem digit_not_space {c : Char} (h : isDigitCh c = true) : isPySpace c = false := by
  obtain ⟨h1, h2⟩ := isDigitCh_toNat h
  simp only [isPySpace, Bool.or_eq_false_iff, decide_eq_false_iff_not]
  omega

theorem digit_ne {c d : Char} (h : isDigitCh c = true) (hd : isDigitCh d = false) :
    c ≠ d := by
  intro he
  rw [he] at h
  rw [h] at hd
  exact absurd hd (by simp)

theorem pyLower_digit {c : Char} (h : isDigitCh c = true) : pyLower c = c := by
  obtain ⟨h1, h2⟩ := isDigitCh_toNat h
  rw [pyLower, if_neg]
  simp only [Bool.and_eq_true, decide_eq_true_eq, not_and]
  omega

/-- String append acts as list append on the underlying characters. -/
theorem data_append (a b : String) : (a ++ b).data = a.data ++ b.data := rfl

/-- Decomposition of a printed decimal: an optional minus sign, a nonempty
digit integer part, a point, and a nonempty digit fraction part whose value
recovers `|q|`. -/
theorem printed_decomp {q : Rat} {L : Nat} (h : q.den ∣ 10 ^ L) :
    ∃ ip fp : List Char, AllDigits ip ∧ AllDigits fp ∧ ip ≠ [] ∧ fp ≠ [] ∧
      (ratToDecimalStr q).data = (if q.num < 0 then ['-'] else []) ++ (ip ++ '.' :: fp) ∧
      (digitsVal ip : Rat) + (digitsVal fp : Rat) / (10 : Rat) ^ fp.length =
        (q.num.natAbs : Rat) / (q.den : Rat) := by
  have hdpos : 0 < q.den := q.pos
  have hdd : q.den ∣ 10 ^ pow10exp q.den := den_dvd_10_max hdpos h
  have hguard : 10 ^ pow10exp q.den % q.den = 0 := Nat.mod_eq_zero_of_dvd hdd
  by_cases hk : pow10exp q.den = 0
  · have hd1 : q.den = 1 := by
      have := hdd
      rw [hk, pow_zero] at this
      exact Nat.eq_one_of_dvd_one this
    refine ⟨natDigits (ratScaled q), ['0'], natDigits_digits _, ?_, natDigits_ne_nil _,
      by simp, ?_, ?_⟩
    · intro c hc
      simp at hc
      subst hc
      rfl
    · rw [ratToDecimalStr, if_pos hguard, if_pos hk]
      cases hn : decide (q.num < 0) with
      | true =>
          simp only [decide_eq_true_eq] at hn
          rw [if_pos hn, if_pos hn]
          rfl
      | false =>
          simp only [decide_eq_false_iff_not] at hn
          rw [if_neg hn, if_neg hn]
          rfl
    · have hm : ratScaled q = q.num.natAbs := by
        rw [ratScaled, hk, hd1]
        simp
      have h0 : digitsVal ['0'] = 0 := by decide
      rw [hm, digitsVal_natDigits, hd1, h0]
      norm_num
  · set k := pow10exp q.den with hkdef
    set m := ratScaled q with hmdef
    have hlen : (natDigitsRev (m % 10 ^ k)).length ≤ k :=
      natDigitsRev_length_le k (m % 10 ^ k) (Nat.mod_lt m (by positivity))
    refine ⟨natDigits (m / 10 ^ k),
      List.replicate (k - (natDigitsRev (m % 10 ^ k)).length) '0' ++
        (natDigitsRev (m % 10 ^ k)).reverse,
      natDigits_digits _, ?_, natDigits_ne_nil _, ?_, ?_, ?_⟩
    · intro c hc
      rcases List.mem_append.mp hc with hc | hc
      · rw [List.eq_of_mem_replicate hc]
        rfl
      · exact natDigitsRev_digits _ c (List.mem_reverse.mp hc)
    · intro habs
      have := congrArg List.length habs
      simp only [List.length_append, List.length_replicate, List.length_reverse,
        List.length_nil] at this
      omega
    · rw [ratToDecimalStr, if_pos hguard, if_neg hk]
      cases hn : decide (q.num < 0) with
      | true =>
          simp only [decide_eq_true_eq] at hn
          rw [if_pos hn, if_pos hn]
          simp [data_append]
      | false =>
          simp only [decide_eq_false_iff_not] at hn
          rw [if_neg hn, if_neg hn]
          simp [data_append]
    · have hfplen : (List.replicate (k - (natDigitsRev (m % 10 ^ k)).length) '0' ++
          (natDigitsRev (m % 10 ^ k)).reverse).length = k := by
        simp only [List.length_append, List.length_replicate, List.length_reverse]
        omega
      rw [hfplen, digitsVal_replicate_zero, digitsVal_natDigitsRev, digitsVal_natDigits]
      have hdanz : ((q.den : Rat)) ≠ 0 := by positivity
      have hpnz : ((10 : Rat) ^ k) ≠ 0 := by positivity
      have hcastm : (m : Rat) = (q.num.natAbs : Rat) * ((10 : Rat) ^ k / (q.den : Rat)) := by
        rw [hmdef, ratScaled, ← hkdef]
        rw [Nat.cast_mul, Nat.cast_div hdd hdanz]
        push_cast
        ring
      have hsplit : ((m / 10 ^ k : Nat) : Rat) + ((m % 10 ^ k : Nat) : Rat) / (10 : Rat) ^ k =
          (m : Rat) / (10 : Rat) ^ k := by
        have hdm := Nat.div_add_mod m (10 ^ k)
        have : ((10 ^ k * (m / 10 ^ k) + m % 10 ^ k : Nat) : Rat) = (m : Rat) := by
          rw [hdm]
        push_cast at this
        field_simp
        linarith
      rw [hsplit, hcastm]
      field_simp
      ring

theorem toNumericCell_congr {s t : String} (h : s.data = t.data) :
    toNumericCell s = toNumericCell t := by
  rw [toNumericCell, toNumericCell, h]

/-- Parsing a rendered signed decimal `[-]digits.digits` recovers its
value. -/
theorem parse_signed_decimal (neg : Bool) {ip fp : List Char}
    (hipd : AllDigits ip) (hfpd : AllDigits fp) (hipne : ip ≠ []) :
    toNumericCell (String.mk ((if neg then ['-'] else []) ++ (ip ++ '.' :: fp))) =
    Cell.num ((((if neg then (-1 : Int) else 1) : Int) : Rat) *
      ((digitsVal ip : Rat) + (digitsVal fp : Rat) / (10 : Rat) ^ fp.length)) := by
  obtain ⟨c0, ip0, rfl⟩ := List.exists_cons_of_ne_nil hipne
  have hc0d : isDigitCh c0 = true := hipd c0 (by simp)
  have hc0n := isDigitCh_toNat hc0d
  have hcore_chars : ∀ c ∈ (c0 :: ip0) ++ '.' :: fp, isDigitCh c = true ∨ c = '.' := by
    intro c hc
    rcases List.mem_append.mp hc with hc | hc
    · exact Or.inl (hipd c hc)
    · rcases List.mem_cons.mp hc with rfl | hc
      · exact Or.inr rfl
      · exact Or.inl (hfpd c hc)
  have hnospace : ∀ c ∈ (if neg then ['-'] else []) ++ ((c0 :: ip0) ++ '.' :: fp),
      isPySpace c = false := by
    intro c hc
    rcases List.mem_append.mp hc with hc | hc
    · cases neg <;> simp at hc
      subst hc
      rfl
    · rcases hcore_chars c hc with hd | rfl
      · exact digit_not_space hd
      · rfl
  have hstrip : pyStripList ((if neg then ['-'] else []) ++ ((c0 :: ip0) ++ '.' :: fp)) =
      (if neg then ['-'] else []) ++ ((c0 :: ip0) ++ '.' :: fp) :=
    pyStripList_eq_self hnospace
  have hnoe : ∀ c ∈ (c0 :: ip0) ++ '.' :: fp, (!(c = 'e' || c = 'E')) = true := by
    intro c hc
    rcases hcore_chars c hc with hd | rfl
    · have := isDigitCh_toNat hd
      have he : ¬(c = 'e') := fun h => by
        have h2 := toNat_of_eq h
        have h3 : ('e').toNat = 101 := rfl
        omega
      have hE : ¬(c = 'E') := fun h => by
        have h2 := toNat_of_eq h
        have h3 : ('E').toNat = 69 := rfl
        omega
      simp [he, hE]
    · rfl
  obtain ⟨htwE, hdwE⟩ := takeWhile_all_eq hnoe
  have hsplitExp : splitExp ((c0 :: ip0) ++ '.' :: fp) = ((c0 :: ip0) ++ '.' :: fp, none) := by
    rw [splitExp, hdwE, htwE]
  have hdot : isDigitCh '.' = false := rfl
  obtain ⟨htwD, hdwD⟩ := @takeWhile_append_stop isDigitCh (c0 :: ip0) fp '.' hipd hdot
  have hmant : parseMantissa ((c0 :: ip0) ++ '.' :: fp) =
      some ((digitsVal (c0 :: ip0) : Rat) + (digitsVal fp : Rat) / (10 : Rat) ^ fp.length) := by
    rw [← decFrac_eq]
    rw [parseMantissa]
    simp only [htwD, hdwD]
    simp only [eq_self_iff_true, if_true]
    rw [if_pos]
    simp only [Bool.and_eq_true, List.all_eq_true]
    refine ⟨fun c hc => hfpd c hc, ?_⟩
    simp
  have hcore : parseFloatCore ((c0 :: ip0) ++ '.' :: fp) =
      some ((digitsVal (c0 :: ip0) : Rat) + (digitsVal fp : Rat) / (10 : Rat) ^ fp.length) := by
    rw [parseFloatCore, hsplitExp]
    exact hmant
  have hnan : ¬ (((c0 :: ip0) ++ '.' :: fp).map pyLower = "nan".data) := by
    intro heq
    have hnd : "nan".data = 'n' :: ['a', 'n'] := rfl
    rw [List.cons_append, List.map_cons, hnd] at heq
    have hh := (List.cons.injEq _ _ _ _).mp heq |>.1
    rw [pyLower_digit hc0d] at hh
    have := toNat_of_eq hh
    have h110 : ('n').toNat = 110 := rfl
    omega
  cases neg with
  | true =>
      rw [toNumericCell]
      have hstrip2 : pyStripList ('-' :: ((c0 :: ip0) ++ '.' :: fp)) =
          '-' :: ((c0 :: ip0) ++ '.' :: fp) := by
        simpa using hstrip
      simp only [String.data, eq_self_iff_true, if_true, List.cons_append, List.nil_append]
      simp only [List.cons_append] at hstrip2
      rw [hstrip2]
      have hm : ('-' = '+') = False := by simp [Char.ext_iff]
      simp only [List.cons_append] at hnan hcore
      simp [hnan, hcore, hm, applySign_eq]
      intro hlc0
      exfalso
      rw [pyLower_digit hc0d] at hlc0
      have h2 := toNat_of_eq hlc0
      have h110 : ('n').toNat = 110 := rfl
      obtain ⟨hn1, hn2⟩ := isDigitCh_toNat hc0d
      omega
  | false =>
      rw [toNumericCell]
      have hstrip2 : pyStripList ((c0 :: ip0) ++ '.' :: fp) =
          (c0 :: ip0) ++ '.' :: fp := by
        simpa using hstrip
      simp only [String.data, Bool.false_eq_true, if_false, List.cons_append,
        List.nil_append]
      simp only [List.cons_append] at hstrip2
      rw [hstrip2]
      have hp : ¬ (c0 = '+') := fun h => by
        have h2 := toNat_of_eq h
        have h3 : ('+').toNat = 43 := rfl
        omega
      have hm : ¬ (c0 = '-') := fun h => by
        have h2 := toNat_of_eq h
        have h3 : ('-').toNat = 45 := rfl
        omega
      simp only [List.cons_append] at hnan hcore ⊢
      simp [hp, hm, hnan, hcore, applySign_eq]
      intro hlc0
      exfalso
      rw [pyLower_digit hc0d] at hlc0
      have h2 := toNat_of_eq hlc0
      have h110 : ('n').toNat = 110 := rfl
      obtain ⟨hn1, hn2⟩ := isDigitCh_toNat hc0d
      omega

/-- Round trip: re-coercing an already-parsed float cell (a rational with a
10-smooth denominator) through str / strip / to_numeric is the identity. -/
theorem cleanCurrencyCell_num {q : Rat} {L : Nat} (h : q.den ∣ 10 ^ L) :
    cleanCurrencyCell (Cell.num q) = Cell.num q := by
  obtain ⟨ip, fp, hipd, hfpd, hipne, hfpne, hdata, hval⟩ := printed_decomp h
  rw [cleanCurrencyCell, astypeStr]
  have hnostrip : (stripCur (ratToDecimalStr q)).data = (ratToDecimalStr q).data := by
    apply List.filter_eq_self.mpr
    intro c hc
    rw [hdata] at hc
    have hcore : isDigitCh c = true ∨ c = '.' ∨ c = '-' := by
      rcases List.mem_append.mp hc with hc | hc
      · by_cases hn : q.num < 0
        · rw [if_pos hn] at hc
          simp at hc
          exact Or.inr (Or.inr hc)
        · rw [if_neg hn] at hc
          simp at hc
      · rcases List.mem_append.mp hc with hc | hc
        · exact Or.inl (hipd c hc)
        · rcases List.mem_cons.mp hc with rfl | hc
          · exact Or.inr (Or.inl rfl)
          · exact Or.inl (hfpd c hc)
    have hd : ¬(c = '$') := by
      rcases hcore with hd | rfl | rfl
      · intro he
        have h2 := toNat_of_eq he
        have h3 : ('$').toNat = 36 := rfl
        have := isDigitCh_toNat hd
        omega
      · intro he; exact absurd (toNat_of_eq he) (by decide)
      · intro he; exact absurd (toNat_of_eq he) (by decide)
    have hco : ¬(c = ',') := by
      rcases hcore with hd | rfl | rfl
      · intro he
        have h2 := toNat_of_eq he
        have h3 : (',').toNat = 44 := rfl
        have := isDigitCh_toNat hd
        omega
      · intro he; exact absurd (toNat_of_eq he) (by decide)
      · intro he; exact absurd (toNat_of_eq he) (by decide)
    simp [hd, hco]
  have hdnz : ((q.den : Rat)) ≠ 0 := by positivity
  by_cases hn : q.num < 0
  · rw [if_pos hn] at hdata
    have hps := parse_signed_decimal true hipd hfpd hipne
    simp only [if_true] at hps
    rw [toNumericCell_congr (hnostrip.trans hdata), hps, hval]
    have habs : ((q.num.natAbs : Rat)) = -((q.num : Rat)) := by
      rw [Int.cast_natAbs]
      exact_mod_cast abs_of_neg hn
    rw [habs]
    have hq := Rat.num_div_den q
    congr 1
    conv_rhs => rw [← hq]
    push_cast
    ring
  · rw [if_neg hn] at hdata
    have hps := parse_signed_decimal false hipd hfpd hipne
    simp only [Bool.false_eq_true, if_false] at hps
    rw [toNumericCell_congr (hnostrip.trans hdata), hps, hval]
    have habs : ((q.num.natAbs : Rat)) = ((q.num : Rat)) := by
      rw [Int.cast_natAbs]
      exact_mod_cast abs_of_nonneg (not_lt.mp hn)
    rw [habs]
    have hq := Rat.num_div_den q
    congr 1
    conv_rhs => rw [← hq]
    push_cast
    ring

/-- Every mantissa value is an integer over a power of ten. -/
theorem parseMantissa_den {m : List Char} {v : Rat} (h : parseMantissa m = some v) :
    ∃ z : Int, ∃ L : Nat, v = (z : Rat) / (10 : Rat) ^ L := by
  rw [parseMantissa] at h
  cases hdw : m.dropWhile isDigitCh with
  | nil =>
      rw [hdw] at h
      replace h : (if (m.takeWhile isDigitCh).isEmpty then (none : Option Rat)
          else some ((digitsVal (m.takeWhile isDigitCh) : Rat))) = some v := h
      by_cases he : (m.takeWhile isDigitCh).isEmpty
      · rw [if_pos he] at h
        exact absurd h (by simp)
      · rw [if_neg he] at h
        refine ⟨digitsVal (m.takeWhile isDigitCh), 0, ?_⟩
        have := (Option.some.injEq _ _).mp h
        rw [← this]
        push_cast
        simp
  | cons c fp =>
      rw [hdw] at h
      replace h : (if c = '.' then
          if fp.all isDigitCh && !((m.takeWhile isDigitCh).isEmpty && fp.isEmpty) then
            some (decFrac (digitsVal (m.takeWhile isDigitCh)) (digitsVal fp) fp.length)
          else none
        else (none : Option Rat)) = some v := h
      by_cases hc : c = '.'
      · rw [if_pos hc] at h
        by_cases hg : (fp.all isDigitCh && !((m.takeWhile isDigitCh).isEmpty && fp.isEmpty)) = true
        · rw [if_pos hg, decFrac_eq] at h
          have hv := (Option.some.injEq _ _).mp h
          refine ⟨digitsVal (m.takeWhile isDigitCh) * 10 ^ fp.length + digitsVal fp,
            fp.length, ?_⟩
          rw [← hv]
          have hp : ((10 : Rat) ^ fp.length) ≠ 0 := by positivity
          push_cast
          field_simp
        · rw [if_neg hg] at h
          exact absurd h (by simp)
      · rw [if_neg hc] at h
        exact absurd h (by simp)

/-- Every parsed float literal value is an integer over a power of ten. -/
theorem parseFloatCore_den {l : List Char} {v : Rat} (h : parseFloatCore l = some v) :
    ∃ z : Int, ∃ L : Nat, v = (z : Rat) / (10 : Rat) ^ L := by
  rw [parseFloatCore] at h
  cases hse : splitExp l with
  | mk m eo =>
      rw [hse] at h
      cases eo with
      | none => exact parseMantissa_den h
      | some el =>
          replace h : (match parseMantissa m, parseExp el with
            | some q, some k => some (mulPow10 q k)
            | _, _ => (none : Option Rat)) = some v := h
          cases hm : parseMantissa m with
          | none => rw [hm] at h; exact absurd h (by simp)
          | some v0 =>
              rw [hm] at h
              cases hex1 : parseExp el with
              | none => rw [hex1] at h; exact absurd h (by simp)
              | some k =>
                  rw [hex1] at h
                  replace h : some (mulPow10 v0 k) = some v := h
                  rw [mulPow10_eq] at h
                  have hv := (Option.some.injEq _ _).mp h
                  obtain ⟨z, L, hz⟩ := parseMantissa_den hm
                  cases k with
                  | ofNat n =>
                      refine ⟨z * 10 ^ n, L, ?_⟩
                      rw [← hv, hz]
                      rw [show ((Int.ofNat n : Int)) = ((n : Nat) : Int) from rfl]
                      rw [zpow_natCast]
                      push_cast
                      ring
                  | negSucc n =>
                      refine ⟨z, L + (n + 1), ?_⟩
                      rw [← hv, hz]
                      rw [show (Int.negSucc n) = -((n + 1 : Nat) : Int) from rfl]
                      rw [zpow_neg, zpow_natCast]
                      rw [pow_add]
                      push_cast
                      ring

/-- Every numeric cell produced by the to_numeric model has a denominator
dividing a power of ten (it is a decimal value). -/
theorem toNumericCell_den {s : String} {q : Rat} (h : toNumericCell s = Cell.num q) :
    ∃ L : Nat, q.den ∣ 10 ^ L := by
  rw [toNumericCell] at h
  have hsgn : ∀ (sgn : Int) (core : List Char), (sgn = 1 ∨ sgn = -1) →
      ((if core.map pyLower = "nan".data then Cell.na
        else match parseFloatCore core with
          | some v => Cell.num (applySign sgn v)
          | none => Cell.na) = Cell.num q) → ∃ L : Nat, q.den ∣ 10 ^ L := by
    intro sgn core hsv hh
    by_cases hnan : core.map pyLower = "nan".data
    · rw [if_pos hnan] at hh
      exact absurd hh (by simp)
    · rw [if_neg hnan] at hh
      cases hpc : parseFloatCore core with
      | none => rw [hpc] at hh; exact absurd hh (by simp)
      | some v =>
          rw [hpc] at hh
          have hv : ((sgn : Rat)) * v = q := by
            have := (Cell.num.injEq _ _).mp hh
            rw [applySign_eq] at this
            exact this
          obtain ⟨z, L, hz⟩ := parseFloatCore_den hpc
          refine ⟨L, den_dvd_pow10 (z := sgn * z) (L := L) ?_⟩
          rw [← hv, hz]
          push_cast
          ring
  cases hl : pyStripList s.data with
  | nil =>
      rw [hl] at h
      exact hsgn 1 [] (Or.inl rfl) h
  | cons c r =>
      rw [hl] at h
      by_cases hcp : c = '+'
      · rw [hcp] at h
        simp only [if_pos rfl] at h
        exact hsgn 1 r (Or.inl rfl) h
      · by_cases hcm : c = '-'
        · rw [hcm] at h
          have hne : ¬(('-') = '+') := by decide
          simp only [if_neg hne, if_pos rfl] at h
          exact hsgn (-1) r (Or.inr rfl) h
        · simp only [if_neg hcp, if_neg hcm] at h
          exact hsgn 1 (c :: r) (Or.inl rfl) h

/-- The to_numeric model only produces missing or numeric cells. -/
theorem toNumericCell_na_or_num (s : String) :
    toNumericCell s = Cell.na ∨ ∃ q, toNumericCell s = Cell.num q := by
  rw [toNumericCell]
  have hres : ∀ (sgn : Int) (core : List Char),
      ((if core.map pyLower = "nan".data then Cell.na
        else match parseFloatCore core with
          | some v => Cell.num (applySign sgn v)
          | none => Cell.na) = Cell.na) ∨
      (∃ q, (if core.map pyLower = "nan".data then Cell.na
        else match parseFloatCore core with
          | some v => Cell.num (applySign sgn v)
          | none => Cell.na) = Cell.num q) := by
    intro sgn core
    by_cases hnan : core.map pyLower = "nan".data
    · rw [if_pos hnan]
      exact Or.inl rfl
    · rw [if_neg hnan]
      cases parseFloatCore core with
      | none => exact Or.inl rfl
      | some v => exact Or.inr ⟨_, rfl⟩
  cases hl : pyStripList s.data with
  | nil => exact hres 1 []
  | cons c r =>
      by_cases hcp : c = '+'
      · rw [hcp]
        simp only [if_pos rfl]
        exact hres 1 r
      · by_cases hcm : c = '-'
        · rw [hcm]
          have hne : ¬(('-') = '+') := by decide
          simp only [if_neg hne, if_pos rfl]
          exact hres (-1) r
        · simp only [if_neg hcp, if_neg hcm]
          exact hres 1 (c :: r)

/-- Currency coercion is idempotent on every cell. -/
theorem cleanCurrencyCell_idem (c : Cell) :
    cleanCurrencyCell (cleanCurrencyCell c) = cleanCurrencyCell c := by
  have hna : cleanCurrencyCell Cell.na = Cell.na := by decide
  cases hc : cleanCurrencyCell c with
  | na => exact hna
  | num q =>
      obtain ⟨L, hL⟩ : ∃ L : Nat, q.den ∣ 10 ^ L := by
        rw [cleanCurrencyCell] at hc
        exact toNumericCell_den hc
      exact cleanCurrencyCell_num hL
  | str s =>
      exfalso
      rw [cleanCurrencyCell] at hc
      rcases toNumericCell_na_or_num (stripCur (astypeStr c)) with hn | ⟨q, hn⟩ <;>
        rw [hn] at hc <;> exact absurd hc (by simp)
  | date d =>
      exfalso
      rw [cleanCurrencyCell] at hc
      rcases toNumericCell_na_or_num (stripCur (astypeStr c)) with hn | ⟨q, hn⟩ <;>
        rw [hn] at hc <;> exact absurd hc (by simp)

/-! ### Shape of accepted numeric literals (specification-side predicates) -/

/-- Shape of an unsigned mantissa: all digits, or digits around one decimal
point, with at least one digit in total. -/
def MantShape (m : List Char) : Prop :=
  (m ≠ [] ∧ AllDigits m) ∨
  (∃ ip fp, m = ip ++ '.' :: fp ∧ AllDigits ip ∧ AllDigits fp ∧ (ip ≠ [] ∨ fp ≠ []))

/-- Shape of an exponent: optional sign then at least one digit. -/
def ExpShape (e : List Char) : Prop :=
  ∃ sgn ds, (sgn = [] ∨ sgn = ['+'] ∨ sgn = ['-']) ∧ ds ≠ [] ∧ AllDigits ds ∧
    e = sgn ++ ds

/-- Shape of a string the numeric coercion can accept: optional surrounding
whitespace, an optional sign, and a body that is "nan" (any case), a
mantissa, or a mantissa with an exponent part. -/
def FloatLitShape (l : List Char) : Prop :=
  ∃ ws1 ws2 sgn body,
    (∀ c ∈ ws1, isPySpace c = true) ∧ (∀ c ∈ ws2, isPySpace c = true) ∧
    (sgn = [] ∨ sgn = ['+'] ∨ sgn = ['-']) ∧
    l = ws1 ++ sgn ++ body ++ ws2 ∧
    (body.map pyLower = "nan".data ∨ MantShape body ∨
     ∃ m e, (body = m ++ 'e' :: e ∨ body = m ++ 'E' :: e) ∧ MantShape m ∧ ExpShape e)

theorem parseMantissa_shape {m : List Char} {v : Rat} (h : parseMantissa m = some v) :
    MantShape m := by
  rw [parseMantissa] at h
  have hm := List.takeWhile_append_dropWhile (p := isDigitCh) (l := m)
  cases hdw : m.dropWhile isDigitCh with
  | nil =>
      rw [hdw] at h hm
      replace h : (if (m.takeWhile isDigitCh).isEmpty then (none : Option Rat)
          else some ((digitsVal (m.takeWhile isDigitCh) : Rat))) = some v := h
      by_cases he : (m.takeWhile isDigitCh).isEmpty
      · rw [if_pos he] at h
        exact absurd h (by simp)
      · refine Or.inl ⟨?_, ?_⟩
        · rw [← hm]
          simp only [List.append_nil]
          intro hnil
          rw [hnil] at he
          simp at he
        · intro c hc
          rw [← hm] at hc
          simp only [List.append_nil] at hc
          exact List.mem_takeWhile_imp hc
  | cons c fp =>
      rw [hdw] at h hm
      replace h : (if c = '.' then
          if fp.all isDigitCh && !((m.takeWhile isDigitCh).isEmpty && fp.isEmpty) then
            some (decFrac (digitsVal (m.takeWhile isDigitCh)) (digitsVal fp) fp.length)
          else none
        else (none : Option Rat)) = some v := h
      by_cases hc : c = '.'
      · rw [if_pos hc] at h
        by_cases hg : (fp.all isDigitCh && !((m.takeWhile isDigitCh).isEmpty && fp.isEmpty)) = true
        · simp only [Bool.and_eq_true, Bool.not_eq_true', Bool.and_eq_false_iff] at hg
          refine Or.inr ⟨m.takeWhile isDigitCh, fp, ?_, ?_, ?_, ?_⟩
          · conv_lhs => rw [← hm]
            rw [hc]
          · intro x hx; exact List.mem_takeWhile_imp hx
          · exact fun x hx => List.all_eq_true.mp hg.1 x hx
          · rcases hg.2 with hg2 | hg2
            · exact Or.inl (by simpa using hg2)
            · exact Or.inr (by simpa using hg2)
        · rw [if_neg hg] at h
          exact absurd h (by simp)
      · rw [if_neg hc] at h
        exact absurd h (by simp)

theorem parseExp_shape {e : List Char} {k : Int} (h : parseExp e = some k) :
    ExpShape e := by
  cases e with
  | nil => rw [parseExp] at h; exact absurd h (by simp)
  | cons c r =>
      rw [parseExp] at h
      by_cases hcp : c = '+'
      · rw [if_pos hcp] at h
        by_cases hg : (!r.isEmpty && r.all isDigitCh) = true
        · simp only [Bool.and_eq_true, Bool.not_eq_true'] at hg
          exact ⟨['+'], r, Or.inr (Or.inl rfl), by simpa using hg.1,
            fun x hx => List.all_eq_true.mp hg.2 x hx, by simp [hcp]⟩
        · rw [if_neg hg] at h
          exact absurd h (by simp)
      · rw [if_neg hcp] at h
        by_cases hcm : c = '-'
        · rw [if_pos hcm] at h
          by_cases hg : (!r.isEmpty && r.all isDigitCh) = true
          · simp only [Bool.and_eq_true, Bool.not_eq_true'] at hg
            exact ⟨['-'], r, Or.inr (Or.inr rfl), by simpa using hg.1,
              fun x hx => List.all_eq_true.mp hg.2 x hx, by simp [hcm]⟩
          · rw [if_neg hg] at h
            exact absurd h (by simp)
        · rw [if_neg hcm] at h
          by_cases hg : ((c :: r).all isDigitCh) = true
          · exact ⟨[], c :: r, Or.inl rfl, by simp,
              fun x hx => List.all_eq_true.mp hg x hx, rfl⟩
          · rw [if_neg hg] at h
            exact absurd h (by simp)

theorem dropWhile_head_false {p : Char → Bool} {l : List Char} {c : Char} {r : List Char}
    (h : l.dropWhile p = c :: r) : p c = false := by
  induction l with
  | nil => simp at h
  | cons a rest ih =>
      rw [List.dropWhile_cons] at h
      by_cases ha : p a = true
      · rw [if_pos ha] at h
        exact ih h
      · rw [if_neg ha] at h
        have hac : a = c := ((List.cons.injEq a rest c r).mp h).1
        rw [← hac]
        simpa using ha

theorem parseFloatCore_shape {l : List Char} {v : Rat} (h : parseFloatCore l = some v) :
    MantShape l ∨
    ∃ m e, (l = m ++ 'e' :: e ∨ l = m ++ 'E' :: e) ∧ MantShape m ∧ ExpShape e := by
  rw [parseFloatCore] at h
  have hsplit := List.takeWhile_append_dropWhile
    (p := fun c => !(c = 'e' || c = 'E')) (l := l)
  rw [splitExp] at h
  cases hdw : l.dropWhile (fun c => !(c = 'e' || c = 'E')) with
  | nil =>
      rw [hdw] at h hsplit
      replace h : parseMantissa (l.takeWhile (fun c => !(c = 'e' || c = 'E'))) = some v := h
      simp only [List.append_nil] at hsplit
      rw [hsplit] at h
      exact Or.inl (parseMantissa_shape h)
  | cons c0 rest =>
      rw [hdw] at h hsplit
      replace h : (match parseMantissa (l.takeWhile (fun c => !(c = 'e' || c = 'E'))),
          parseExp rest with
        | some q, some k => some (mulPow10 q k)
        | _, _ => (none : Option Rat)) = some v := h
      cases hm : parseMantissa (l.takeWhile (fun c => !(c = 'e' || c = 'E'))) with
      | none => rw [hm] at h; exact absurd h (by simp)
      | some v0 =>
          rw [hm] at h
          cases hex : parseExp rest with
          | none => rw [hex] at h; exact absurd h (by simp)
          | some k =>
              have hc0 := dropWhile_head_false hdw
              have hc0' : c0 = 'e' ∨ c0 = 'E' := by
                by_cases he : c0 = 'e'
                · exact Or.inl he
                · by_cases hE : c0 = 'E'
                  · exact Or.inr hE
                  · exfalso
                    simp [he, hE] at hc0
              refine Or.inr ⟨l.takeWhile (fun c => !(c = 'e' || c = 'E')), rest, ?_,
                parseMantissa_shape hm, parseExp_shape hex⟩
              rcases hc0' with rfl | rfl
              · exact Or.inl hsplit.symm
              · exact Or.inr hsplit.symm

/-- Whitespace decomposition performed by strip. -/
theorem pyStripList_decomp (l : List Char) :
    ∃ ws1 ws2, (∀ c ∈ ws1, isPySpace c = true) ∧ (∀ c ∈ ws2, isPySpace c = true) ∧
      l = ws1 ++ pyStripList l ++ ws2 := by
  refine ⟨l.takeWhile isPySpace,
    ((l.dropWhile isPySpace).reverse.takeWhile isPySpace).reverse, ?_, ?_, ?_⟩
  · intro c hc; exact List.mem_takeWhile_imp hc
  · intro c hc; exact List.mem_takeWhile_imp (List.mem_reverse.mp hc)
  · have hd : l.dropWhile isPySpace =
        pyStripList l ++ ((l.dropWhile isPySpace).reverse.takeWhile isPySpace).reverse := by
      rw [pyStripList]
      conv_lhs => rw [← List.reverse_reverse (l.dropWhile isPySpace)]
      conv_lhs => rw [← List.takeWhile_append_dropWhile (p := isPySpace)
        (l := (l.dropWhile isPySpace).reverse)]
      rw [List.reverse_append]
    conv_lhs => rw [← List.takeWhile_append_dropWhile (p := isPySpace) (l := l), hd]
    rw [← List.append_assoc]

/-- Completeness of the numeric coercion: whenever it produces a number,
the stripped string has the float-literal shape. -/
theorem toNumericCell_num_shape {s : String} {q : Rat}
    (h : toNumericCell s = Cell.num q) : FloatLitShape s.data := by
  obtain ⟨ws1, ws2, hws1, hws2, hdecomp⟩ := pyStripList_decomp s.data
  rw [toNumericCell] at h
  have hbody : ∀ (sgn : Int) (core : List Char),
      ((if core.map pyLower = "nan".data then Cell.na
        else match parseFloatCore core with
          | some v => Cell.num (applySign sgn v)
          | none => Cell.na) = Cell.num q) →
      (core.map pyLower = "nan".data ∨ MantShape core ∨
       ∃ m e, (core = m ++ 'e' :: e ∨ core = m ++ 'E' :: e) ∧ MantShape m ∧ ExpShape e) := by
    intro sgn core hh
    by_cases hnan : core.map pyLower = "nan".data
    · exact Or.inl hnan
    · rw [if_neg hnan] at hh
      cases hpc : parseFloatCore core with
      | none => rw [hpc] at hh; exact absurd hh (by simp)
      | some v => exact Or.inr (parseFloatCore_shape hpc)
  cases hl : pyStripList s.data with
  | nil =>
      rw [hl] at h
      have := hbody 1 [] h
      rcases this with hn | hm | ⟨m, e, hme, _, _⟩
      · simp at hn
      · rcases hm with ⟨hne, _⟩ | ⟨ip, fp, hip, _, _, _⟩
        · exact absurd rfl hne
        · exact absurd hip.symm (by simp)
      · rcases hme with hme | hme <;> exact absurd hme.symm (by simp)
  | cons c r =>
      rw [hl] at h
      rw [hl] at hdecomp
      by_cases hcp : c = '+'
      · rw [hcp] at h hdecomp
        simp only [if_pos rfl] at h
        refine ⟨ws1, ws2, ['+'], r, hws1, hws2, Or.inr (Or.inl rfl), by
          rw [hdecomp]; simp, hbody 1 r h⟩
      · by_cases hcm : c = '-'
        · rw [hcm] at h hdecomp
          have hne : ¬(('-') = '+') := by decide
          simp only [if_neg hne, if_pos rfl] at h
          refine ⟨ws1, ws2, ['-'], r, hws1, hws2, Or.inr (Or.inr rfl), by
            rw [hdecomp]; simp, hbody (-1) r h⟩
        · simp only [if_neg hcp, if_neg hcm] at h
          refine ⟨ws1, ws2, [], c :: r, hws1, hws2, Or.inl rfl, by
            rw [hdecomp]; simp, hbody 1 (c :: r) h⟩

/-! ### Dollar-and-comma currency strings -/

/-- Digit groups joined with comma separators, as in "1,234". -/
def joinComma : List (List Char) → List Char
  | [] => []
  | [g] => g
  | g :: rest => g ++ ',' :: joinComma rest

/-- Shape of a `"$1,234.56"`-style currency string: a dollar sign, nonempty
digit groups separated by commas, a point, and a nonempty digit fraction;
`ip` is the concatenated integer digits and `fp` the fraction digits. -/
def DollarForm (s : String) (ip fp : List Char) : Prop :=
  ∃ groups : List (List Char), groups ≠ [] ∧ (∀ g ∈ groups, g ≠ []) ∧
    (∀ g ∈ groups, AllDigits g) ∧ ip = groups.join ∧ AllDigits fp ∧ fp ≠ [] ∧
    s.data = '$' :: (joinComma groups ++ '.' :: fp)

theorem digit_keep {c : Char} (h : isDigitCh c = true) :
    (!(c = '$' || c = ',')) = true := by
  obtain ⟨h1, h2⟩ := isDigitCh_toNat h
  have hd : ¬(c = '$') := fun he => by
    have := toNat_of_eq he
    have h36 : ('$').toNat = 36 := rfl
    omega
  have hco : ¬(c = ',') := fun he => by
    have := toNat_of_eq he
    have h44 : (',').toNat = 44 := rfl
    omega
  simp [hd, hco]

theorem filter_joinComma : ∀ groups : List (List Char), (∀ g ∈ groups, AllDigits g) →
    (joinComma groups).filter (fun c => !(c = '$' || c = ',')) = groups.join := by
  intro groups
  induction groups with
  | nil => intro _; rfl
  | cons g rest ih =>
      intro hd
      cases rest with
      | nil =>
          have h1 : joinComma [g] = g := rfl
          have h2 : ([g] : List (List Char)).join = g ++ [] := rfl
          rw [h1, h2, List.append_nil,
            List.filter_eq_self.mpr (fun c hc => digit_keep (hd g (by simp) c hc))]
      | cons g2 rest2 =>
          show (g ++ ',' :: joinComma (g2 :: rest2)).filter _ = _
          rw [List.filter_append,
            List.filter_eq_self.mpr (fun c hc => digit_keep (hd g (by simp) c hc)),
            List.filter_cons]
          have hcomma : (!((',' : Char) = '$' || (',' : Char) = ',')) = false := by decide
          rw [hcomma]
          simp only [Bool.false_eq_true, if_false, cond_false]
          rw [ih (fun g hg c hc => hd g (by simp [hg]) c hc)]
          rfl

theorem join_ne_nil {groups : List (List Char)} (h1 : groups ≠ [])
    (h2 : ∀ g ∈ groups, g ≠ []) : groups.join ≠ [] := by
  cases groups with
  | nil => exact absurd rfl h1
  | cons g rest =>
      have := h2 g (by simp)
      simp only [List.join_cons]
      intro habs
      exact this (List.append_eq_nil.mp habs).1

theorem join_digits {groups : List (List Char)} (h : ∀ g ∈ groups, AllDigits g) :
    AllDigits groups.join := by
  intro c hc
  obtain ⟨g, hg, hcg⟩ := List.mem_join.mp hc
  exact h g hg c hcg

/-- Parsing a dollar-form currency string after stripping `$` and `,`
recovers the decimal value of its digits. -/
theorem cleanCurrency_dollarForm {s : String} {ip fp : List Char}
    (h : DollarForm s ip fp) :
    cleanCurrencyCell (Cell.str s) =
      Cell.num ((digitsVal ip : Rat) + (digitsVal fp : Rat) / (10 : Rat) ^ fp.length) := by
  obtain ⟨groups, hgne, hgne2, hgd, hip, hfpd, hfpne, hdata⟩ := h
  have hipd : AllDigits ip := hip ▸ join_digits hgd
  have hipne : ip ≠ [] := hip ▸ join_ne_nil hgne hgne2
  rw [cleanCurrencyCell, astypeStr]
  have hstrip : (stripCur s).data = ip ++ '.' :: fp := by
    show s.data.filter _ = _
    rw [hdata, List.filter_cons]
    have hdollar : (!(('$' : Char) = '$' || ('$' : Char) = ',')) = false := by decide
    rw [hdollar]
    simp only [Bool.false_eq_true, if_false, cond_false]
    rw [List.filter_append, filter_joinComma groups hgd, List.filter_cons]
    have hdot : (!(('.' : Char) = '$' || ('.' : Char) = ',')) = true := by decide
    rw [hdot]
    simp only [if_true, cond_true]
    rw [List.filter_eq_self.mpr (fun c hc => digit_keep (hfpd c hc)), hip]
  have hps := parse_signed_decimal false hipd hfpd hipne
  simp only [Bool.false_eq_true, if_false, List.nil_append] at hps
  rw [toNumericCell_congr (t := String.mk (ip ++ '.' :: fp)) hstrip, hps]
  norm_num

/-- C3: currency coercion on cells of the price/service_fee columns.  A
dollar-form string `"$d,ddd.dd"` coerces to its decimal value (in
particular `"$1,234.56"` to 1234.56); a cell that coerces to a number has
the float-literal shape after stripping `$` and `,` — equivalently, a
string that is not numeric after stripping coerces to missing — and
coercion is total: every cell yields a number or missing, never an error. -/
theorem c3_currency_coercion :
    (∀ (s : String) (ip fp : List Char), DollarForm s ip fp →
       cleanCurrencyCell (Cell.str s) =
         Cell.num ((digitsVal ip : Rat) + (digitsVal fp : Rat) / (10 : Rat) ^ fp.length)) ∧
    (∀ (s : String) (q : Rat), cleanCurrencyCell (Cell.str s) = Cell.num q →
       FloatLitShape (stripCur s).data) ∧
    (∀ c : Cell, cleanCurrencyCell c = Cell.na ∨ ∃ q, cleanCurrencyCell c = Cell.num q) ∧
    cleanCurrencyCell (Cell.str "$1,234.56") = Cell.num (Rat.divInt 30864 25) ∧
    cleanCurrencyCell (Cell.str "garbage") = Cell.na := by
  refine ⟨fun s ip fp h => cleanCurrency_dollarForm h, ?_, ?_,
    by decide, by decide⟩
  · intro s q h
    rw [cleanCurrencyCell, astypeStr] at h
    exact toNumericCell_num_shape h
  · intro c
    rw [cleanCurrencyCell]
    exact toNumericCell_na_or_num _

/-- C3 witness: the theorem applied to the concrete string "$1,234.56" with
its digit-group decomposition, and to the shape obligation at the same
string. -/
theorem c3_witness :
    cleanCurrencyCell (Cell.str "$1,234.56") =
      Cell.num ((digitsVal ['1', '2', '3', '4'] : Rat) +
        (digitsVal ['5', '6'] : Rat) / (10 : Rat) ^ (['5', '6'] : List Char).length) ∧
    FloatLitShape (stripCur "$1,234.56").data :=
  ⟨c3_currency_coercion.1 "$1,234.56" ['1', '2', '3', '4'] ['5', '6']
     ⟨[['1'], ['2', '3', '4']], by decide, by decide, by decide, by decide,
      by decide, by decide, by decide⟩,
   c3_currency_coercion.2.1 "$1,234.56" (Rat.divInt 30864 25) (by decide)⟩

/-! ### Idempotence of header normalisation -/

theorem pyLower_fix {c : Char} (h : ¬ (65 ≤ c.toNat ∧ c.toNat ≤ 90)) : pyLower c = c := by
  rw [pyLower, if_neg]
  simpa using h

theorem pyLower_notUpper (c : Char) :
    ¬ (65 ≤ (pyLower c).toNat ∧ (pyLower c).toNat ≤ 90) := by
  rw [pyLower]
  split_ifs with h
  · simp only [Bool.and_eq_true, decide_eq_true_eq] at h
    rw [charOfNat_toNat (by omega)]
    omega
  · simp only [Bool.and_eq_true, decide_eq_true_eq, not_and_or, not_le] at h
    omega

theorem pyLower_idem (c : Char) : pyLower (pyLower c) = pyLower c :=
  pyLower_fix (pyLower_notUpper c)

theorem collapseWs_mem :
    ∀ l : List Char, ∀ c ∈ collapseWs l, c = '_' ∨ (c ∈ l ∧ isPySpace c = false) := by
  have key : ∀ n, ∀ l : List Char, l.length ≤ n →
      ∀ c ∈ collapseWs l, c = '_' ∨ (c ∈ l ∧ isPySpace c = false) := by
    intro n
    induction n with
    | zero =>
        intro l hl c hc
        have : l = [] := List.eq_nil_of_length_eq_zero (by omega)
        subst this
        simp [collapseWs, collapseWsAux] at hc
    | succ n ih =>
        intro l hl c hc
        cases l with
        | nil => simp [collapseWs, collapseWsAux] at hc
        | cons a rest =>
            rw [collapseWs_cons] at hc
            by_cases ha : isPySpace a = true
            · rw [if_pos ha] at hc
              rcases List.mem_cons.mp hc with rfl | hc
              · exact Or.inl rfl
              · have hlen : (rest.dropWhile isPySpace).length ≤ n := by
                  have := (List.dropWhile_sublist (l := rest) isPySpace).length_le
                  simp only [List.length_cons] at hl
                  omega
                rcases ih _ hlen c hc with h | ⟨hmem, hsp⟩
                · exact Or.inl h
                · exact Or.inr ⟨List.mem_cons_of_mem _
                    ((List.dropWhile_sublist isPySpace).subset hmem), hsp⟩
            · rw [if_neg ha] at hc
              rcases List.mem_cons.mp hc with rfl | hc
              · exact Or.inr ⟨List.mem_cons_self _ _, by simpa using ha⟩
              · have hlen : rest.length ≤ n := by
                  simp only [List.length_cons] at hl
                  omega
                rcases ih _ hlen c hc with h | ⟨hmem, hsp⟩
                · exact Or.inl h
                · exact Or.inr ⟨List.mem_cons_of_mem _ hmem, hsp⟩
  exact fun l => key l.length l (le_refl _)

theorem collapseWs_no_space (l : List Char) : ∀ c ∈ collapseWs l, isPySpace c = false := by
  intro c hc
  rcases collapseWs_mem l c hc with rfl | ⟨_, h⟩
  · rfl
  · exact h

theorem collapseWs_id : ∀ l : List Char, (∀ c ∈ l, isPySpace c = false) →
    collapseWs l = l := by
  intro l
  induction l with
  | nil => intro _; rfl
  | cons a rest ih =>
      intro h
      rw [collapseWs_cons, if_neg (by simp [h a (by simp)])]
      rw [ih (fun c hc => h c (by simp [hc]))]

theorem map_eq_self_of_fix {α : Type} {f : α → α} {l : List α}
    (h : ∀ c ∈ l, f c = c) : l.map f = l := by
  induction l with
  | nil => rfl
  | cons a rest ih => rw [List.map_cons, h a (by simp), ih (fun c hc => h c (by simp [hc]))]

theorem normName_idem (s : String) : normName (normName s) = normName s := by
  have hdata : (normName s).data = collapseWs ((pyStripList s.data).map pyLower) := rfl
  rw [normName, hdata]
  have hnospace := collapseWs_no_space ((pyStripList s.data).map pyLower)
  rw [pyStripList_eq_self hnospace]
  have hmap : (collapseWs ((pyStripList s.data).map pyLower)).map pyLower =
      collapseWs ((pyStripList s.data).map pyLower) := by
    apply map_eq_self_of_fix
    intro c hc
    rcases collapseWs_mem _ c hc with rfl | ⟨hmem, _⟩
    · rfl
    · obtain ⟨x, _, rfl⟩ := List.mem_map.mp hmem
      exact pyLower_idem x
  rw [hmap, collapseWs_id _ hnospace]
  rfl

/-! ### Column-fixedness: cells of a column are fixed points of a transform -/

/-- Every cell of the first column named `name` (at an in-range position) is
a fixed point of `f`. -/
def ColFixed (t : Table) (name : String) (f : Cell → Cell) : Prop :=
  ∀ j, colIdx? t.header name = some j → ∀ r ∈ t.rows, j < r.length →
    f (cellAt r j) = cellAt r j

theorem set_getD_self : ∀ (r : List Cell) (j : Nat), r.set j (r.getD j Cell.na) = r := by
  intro r
  induction r with
  | nil => intro j; rfl
  | cons a rest ih =>
      intro j
      cases j with
      | zero => rfl
      | succ j => simp only [List.set_cons_succ, List.getD_cons_succ, ih]

theorem set_oob : ∀ (r : List Cell) (j : Nat), r.length ≤ j → ∀ v, r.set j v = r := by
  intro r
  induction r with
  | nil => intro j _ v; rfl
  | cons a rest ih =>
      intro j hj v
      cases j with
      | zero => simp at hj
      | succ j =>
          simp only [List.set_cons_succ]
          rw [ih j (by simp at hj; omega) v]

theorem cellAt_set_self {r : List Cell} {j : Nat} (h : j < r.length) (v : Cell) :
    cellAt (r.set j v) j = v := by
  rw [cellAt, List.getD_eq_getElem?_getD, List.getElem?_set_self (by omega)]
  rfl

theorem cellAt_set_ne {r : List Cell} {i j : Nat} (h : j ≠ i) (v : Cell) :
    cellAt (r.set i v) j = cellAt r j := by
  rw [cellAt, cellAt, List.getD_eq_getElem?_getD, List.getD_eq_getElem?_getD,
    List.getElem?_set_ne (fun he => h he.symm)]

theorem mapColCells_header (t : Table) (name : String) (f : Cell → Cell) :
    (mapColCells t name f).header = t.header := by
  rw [mapColCells]
  cases colIdx? t.header name <;> rfl

theorem colFixed_vacuous {t : Table} {name : String} (h : name ∉ t.header)
    (f : Cell → Cell) : ColFixed t name f := by
  intro j hj
  rw [colIdx?_of_not_mem h] at hj
  exact absurd hj (by simp)

theorem mapColCells_id {t : Table} {name : String} {f : Cell → Cell}
    (hfix : ColFixed t name f) : mapColCells t name f = t := by
  rw [mapColCells]
  cases hc : colIdx? t.header name with
  | none => rfl
  | some j =>
      obtain ⟨hdr, rows⟩ := t
      simp only [Table.mk.injEq, true_and]
      apply map_eq_self_of_fix
      intro r hr
      rcases lt_or_le j r.length with hj | hj
      · rw [hfix j hc r hr hj]
        exact set_getD_self r j
      · exact set_oob r j hj _

theorem colFixed_establish {t : Table} {name : String} {f : Cell → Cell}
    (hidem : ∀ c, f (f c) = f c) : ColFixed (mapColCells t name f) name f := by
  intro j hj r hr hjlen
  rw [mapColCells_header] at hj
  rw [mapColCells, hj] at hr
  simp only [List.mem_map] at hr
  obtain ⟨r0, hr0, rfl⟩ := hr
  rw [List.length_set] at hjlen
  rw [cellAt_set_self hjlen]
  exact hidem _

theorem colFixed_other {t : Table} {name name2 : String} {f g : Cell → Cell}
    (hne : name ≠ name2) (hfix : ColFixed t name f) :
    ColFixed (mapColCells t name2 g) name f := by
  intro j hj r hr hjlen
  rw [mapColCells_header] at hj
  rw [mapColCells] at hr
  cases hc2 : colIdx? t.header name2 with
  | none =>
      rw [hc2] at hr
      exact hfix j hj r hr hjlen
  | some j2 =>
      rw [hc2] at hr
      simp only [List.mem_map] at hr
      obtain ⟨r0, hr0, rfl⟩ := hr
      rw [List.length_set] at hjlen
      have hjj : j ≠ j2 := fun he => hne (colIdx?_inj hj (he ▸ hc2))
      rw [cellAt_set_ne hjj]
      exact hfix j hj r0 hr0 hjlen

theorem colFixed_header_subset {t u : Table} {name : String} {f : Cell → Cell}
    (hh : u.header = t.header) (hsub : ∀ r ∈ u.rows, r ∈ t.rows)
    (hfix : ColFixed t name f) : ColFixed u name f := by
  intro j hj r hr hjlen
  rw [hh] at hj
  exact hfix j hj r (hsub r hr) hjlen

theorem colwiseApply_header (t : Table) (cols : List String) (f : Cell → Cell) :
    (colwiseApply t cols f).header = t.header := by
  induction cols generalizing t with
  | nil => rfl
  | cons c rest ih =>
      rw [colwiseApply, List.foldl_cons]
      by_cases hc : c ∈ t.header
      · rw [if_pos hc]
        rw [show List.foldl _ (mapColCells t c f) rest = colwiseApply (mapColCells t c f) rest f from rfl,
          ih, mapColCells_header]
      · rw [if_neg hc]
        exact ih t

theorem colFixed_colwise_preserve {t : Table} {name : String} {f g : Cell → Cell} :
    ∀ cols : List String, name ∉ cols → ColFixed t name f →
    ColFixed (colwiseApply t cols g) name f := by
  intro cols
  induction cols generalizing t with
  | nil => intro _ h; exact h
  | cons c rest ih =>
      intro hnm hfix
      rw [colwiseApply, List.foldl_cons]
      have hne : name ≠ c := fun he => hnm (he ▸ List.mem_cons_self _ _)
      by_cases hc : c ∈ t.header
      · rw [if_pos hc]
        exact ih (fun hm => hnm (List.mem_cons_of_mem _ hm)) (colFixed_other hne hfix)
      · rw [if_neg hc]
        exact ih (fun hm => hnm (List.mem_cons_of_mem _ hm)) hfix

theorem colFixed_colwise_establish {t : Table} {name : String} {f : Cell → Cell}
    (hidem : ∀ c, f (f c) = f c) :
    ∀ cols : List String, cols.Nodup → name ∈ cols →
    ColFixed (colwiseApply t cols f) name f := by
  intro cols
  induction cols generalizing t with
  | nil => intro _ hm; simp at hm
  | cons c rest ih =>
      intro hnd hm
      rw [colwiseApply, List.foldl_cons]
      rcases List.mem_cons.mp hm with rfl | hm2
      · have hnotin : name ∉ rest := (List.nodup_cons.mp hnd).1
        by_cases hc : name ∈ t.header
        · rw [if_pos hc]
          exact colFixed_colwise_preserve rest hnotin (colFixed_establish hidem)
        · rw [if_neg hc]
          exact colFixed_colwise_preserve rest hnotin (colFixed_vacuous hc f)
      · have hne : name ≠ c := fun he =>
          (List.nodup_cons.mp hnd).1 (he ▸ hm2)
        by_cases hc : c ∈ t.header
        · rw [if_pos hc]
          exact ih (List.nodup_cons.mp hnd).2 hm2
        · rw [if_neg hc]
          exact ih (List.nodup_cons.mp hnd).2 hm2

/-! ### C5: idempotence of the cleaning pipeline -/

theorem parseDateCell_idem (c : Cell) : parseDateCell (parseDateCell c) = parseDateCell c := by
  cases c with
  | na => rfl
  | date d => rfl
  | num q => rfl
  | str s =>
      rw [parseDateCell]
      cases parseDateStr s with
      | none => rfl
      | some d => rfl

theorem fillCell_notNa {v c : Cell} (hc : c ≠ Cell.na) : fillCell v c = c := by
  cases c with
  | na => exact absurd rfl hc
  | num q => rfl
  | str s => rfl
  | date d => rfl

theorem fillCell_idem {v : Cell} (hv : v ≠ Cell.na) (c : Cell) :
    fillCell v (fillCell v c) = fillCell v c := by
  cases c with
  | na =>
      have h1 : fillCell v Cell.na = v := rfl
      rw [h1, fillCell_notNa hv]
  | num q => rfl
  | str s => rfl
  | date d => rfl

/-- A column-wise application over columns whose cells are all fixed by `f`
is the identity. -/
theorem colwiseApply_id {t : Table} {f : Cell → Cell} :
    ∀ cols : List String, (∀ c ∈ cols, ColFixed t c f) → colwiseApply t cols f = t := by
  intro cols
  induction cols with
  | nil => intro _; rfl
  | cons c rest ih =>
      intro h
      rw [colwiseApply, List.foldl_cons]
      by_cases hc : c ∈ t.header
      · rw [if_pos hc, mapColCells_id (h c (by simp))]
        exact ih (fun c2 hc2 => h c2 (by simp [hc2]))
      · rw [if_neg hc]
        exact ih (fun c2 hc2 => h c2 (by simp [hc2]))

theorem fill_header (t : Table) (defaults : List (String × Cell)) :
    (fill_missing_values t defaults).header = t.header := by
  induction defaults generalizing t with
  | nil => rfl
  | cons p rest ih =>
      rw [fill_missing_values, List.foldl_cons]
      by_cases hc : p.1 ∈ t.header
      · rw [if_pos hc]
        rw [show List.foldl _ (mapColCells t p.1 (fillCell p.2)) rest =
          fill_missing_values (mapColCells t p.1 (fillCell p.2)) rest from rfl,
          ih, mapColCells_header]
      · rw [if_neg hc]
        exact ih t

/-- Filling defaults into columns whose cells are all fixed by the fill is
the identity. -/
theorem fill_id {t : Table} :
    ∀ defaults : List (String × Cell), (∀ p ∈ defaults, ColFixed t p.1 (fillCell p.2)) →
    fill_missing_values t defaults = t := by
  intro defaults
  induction defaults with
  | nil => intro _; rfl
  | cons p rest ih =>
      intro h
      rw [fill_missing_values, List.foldl_cons]
      by_cases hc : p.1 ∈ t.header
      · rw [if_pos hc, mapColCells_id (h p (by simp))]
        exact ih (fun q hq => h q (by simp [hq]))
      · rw [if_neg hc]
        exact ih (fun q hq => h q (by simp [hq]))

theorem colFixed_fill_preserve {t : Table} {name : String} {f : Cell → Cell} :
    ∀ defaults : List (String × Cell), name ∉ defaults.map Prod.fst → ColFixed t name f →
    ColFixed (fill_missing_values t defaults) name f := by
  intro defaults
  induction defaults generalizing t with
  | nil => intro _ h; exact h
  | cons p rest ih =>
      intro hnm hfix
      have hnm' : name ∉ p.1 :: rest.map Prod.fst := by simpa using hnm
      have hne : name ≠ p.1 := fun he => hnm' (he ▸ List.mem_cons_self _ _)
      have hnm2 : name ∉ rest.map Prod.fst := fun hm => hnm' (List.mem_cons_of_mem _ hm)
      rw [fill_missing_values, List.foldl_cons]
      by_cases hc : p.1 ∈ t.header
      · rw [if_pos hc]
        exact ih hnm2 (colFixed_other hne hfix)
      · rw [if_neg hc]
        exact ih hnm2 hfix

theorem colFixed_fill_establish {name : String} {v : Cell} (hv : v ≠ Cell.na) :
    ∀ defaults : List (String × Cell), ∀ t : Table, (defaults.map Prod.fst).Nodup →
    (name, v) ∈ defaults →
    ColFixed (fill_missing_values t defaults) name (fillCell v) := by
  intro defaults
  induction defaults with
  | nil => intro t _ hm; simp at hm
  | cons p rest ih =>
      obtain ⟨pn, pv⟩ := p
      intro t hnd hm
      have hnd' : (pn :: rest.map Prod.fst).Nodup := by simpa using hnd
      rw [fill_missing_values, List.foldl_cons]
      rcases List.mem_cons.mp hm with heq | hm2
      · obtain ⟨rfl, rfl⟩ : pn = name ∧ pv = v := by
          obtain ⟨h1, h2⟩ := Prod.mk.injEq .. |>.mp heq.symm
          exact ⟨h1, h2⟩
        have hnotin : pn ∉ rest.map Prod.fst := (List.nodup_cons.mp hnd').1
        by_cases hc : pn ∈ t.header
        · rw [if_pos hc]
          exact colFixed_fill_preserve rest hnotin (colFixed_establish (fillCell_idem hv))
        · rw [if_neg hc]
          exact colFixed_fill_preserve rest hnotin (colFixed_vacuous hc _)
      · have hnotin2 := (List.nodup_cons.mp hnd').2
        by_cases hc : pn ∈ t.header
        · rw [if_pos hc]
          exact ih _ hnotin2 hm2
        · rw [if_neg hc]
          exact ih _ hnotin2 hm2

/-- Header normalisation is the identity on a table whose header names are
already normalised. -/
theorem normalize_columns_id {u : Table} (h : ∀ c ∈ u.header, normName c = c) :
    normalize_columns u = u := by
  obtain ⟨hdr, rows⟩ := u
  simp only [normalize_columns, Table.mk.injEq, and_true]
  exact map_eq_self_of_fix h

/-- Every row surviving a hard-bound trim (and any further row subset with the
same header) satisfies the trim's keep predicate on the trimmed column. -/
theorem trimmed_rows_keep {t t2 u : Table} {col : String} {lo hi : Rat}
    (htrim : remove_outliers_bounds t col lo hi = Except.ok t2)
    (hsub : ∀ r ∈ u.rows, r ∈ t2.rows) (hhead : u.header = t2.header) :
    ∀ j, colIdx? u.header col = some j →
      ∀ r ∈ u.rows, keepCell lo hi (cellAt r j) = true := by
  rcases remove_outliers_cases htrim with ⟨hc, rfl⟩ | ⟨j0, hj0, _, rfl⟩
  · intro j hj
    rw [hhead, hc] at hj
    exact absurd hj (by simp)
  · intro j hj r hr
    rw [hhead] at hj
    have hj2 : colIdx? t.header col = some j := hj
    rw [hj0] at hj2
    have hjj : j0 = j := by injection hj2
    subst hjj
    have hrt := hsub r hr
    exact (List.mem_filter.mp hrt).2

/-- A hard-bound trim whose keep predicate already holds on every row is the
identity. -/
theorem remove_outliers_id {u : Table} {col : String} {lo hi : Rat}
    (h : ∀ j, colIdx? u.header col = some j →
      ∀ r ∈ u.rows, keepCell lo hi (cellAt r j) = true) :
    remove_outliers_bounds u col lo hi = Except.ok u := by
  rw [remove_outliers_bounds]
  cases hc : colIdx? u.header col with
  | none => rfl
  | some j =>
      have hall : u.rows.all (fun r => cmpOK (cellAt r j)) = true := by
        rw [List.all_eq_true]
        exact fun r hr => keepCell_cmpOK (h j hc r hr)
      have hfilter : u.rows.filter (fun r => keepCell lo hi (cellAt r j)) = u.rows :=
        List.filter_eq_self.mpr (fun r hr => h j hc r hr)
      show (if u.rows.all (fun r => cmpOK (cellAt r j)) then
          Except.ok (⟨u.header, u.rows.filter (fun r => keepCell lo hi (cellAt r j))⟩ : Table)
        else Except.error "TypeError") = Except.ok u
      rw [if_pos hall, hfilter]

theorem hardBoundTrims_cases {t u : Table} (h : hardBoundTrims t = Except.ok u) :
    ∃ t5, remove_outliers_bounds t "price" 0 10000 = Except.ok t5 ∧
      remove_outliers_bounds t5 "availability_365" 0 365 = Except.ok u := by
  rw [hardBoundTrims] at h
  cases hp : remove_outliers_bounds t "price" 0 10000 with
  | error e => rw [hp] at h; simp [bind, Except.bind] at h
  | ok t5 =>
      rw [hp] at h
      simp only [bind, Except.bind] at h
      exact ⟨t5, rfl, h⟩

theorem hardBoundTrims_id {u : Table}
    (hp : remove_outliers_bounds u "price" 0 10000 = Except.ok u)
    (ha : remove_outliers_bounds u "availability_365" 0 365 = Except.ok u) :
    hardBoundTrims u = Except.ok u := by
  rw [hardBoundTrims]
  simp only [bind, Except.bind, hp, ha]

/-- C5: the cleaning pipeline is idempotent — whenever a run of the cleaner
succeeds with output `u`, re-running the transformation steps on `u` returns
`u` itself (no header, value, or row changes and no additional drops), and the
full pipeline including the sanity checks also succeeds on `u` with output
`u`. -/
theorem c5_pipeline_idempotent :
    ∀ t u : Table, mainPipeline t = Except.ok u →
      cleanStepsPreSanity u = Except.ok u ∧ mainPipeline u = Except.ok u := by
  intro t u h
  obtain ⟨hsteps, hsan⟩ : cleanStepsPreSanity t = Except.ok u ∧
      sanity_checks u = Except.ok true := by
    rw [mainPipeline] at h
    cases hs : cleanStepsPreSanity t with
    | error e => rw [hs] at h; simp [bind, Except.bind] at h
    | ok v =>
        rw [hs] at h
        simp only [bind, Except.bind] at h
        cases hsv : sanity_checks v with
        | error e => rw [hsv] at h; simp at h
        | ok b =>
            rw [hsv] at h
            cases b with
            | true =>
                simp [pure, Except.pure] at h
                subst h
                exact ⟨rfl, hsv⟩
            | false => simp at h
  obtain ⟨t5, hp1, ha1⟩ := hardBoundTrims_cases
    (show hardBoundTrims (fill_missing_values (parse_date_cols
        (clean_currency_cols (normalize_columns t)
          (["price", "service_fee"].filter (· ∈ (normalize_columns t).header)))
        ["last_review"])
      [("reviews_per_month", Cell.num 0), ("host_identity_verified", Cell.str "unknown")]) =
      Except.ok u from hsteps)
  have ht4h : (fill_missing_values (parse_date_cols
      (clean_currency_cols (normalize_columns t)
        (["price", "service_fee"].filter (· ∈ (normalize_columns t).header)))
      ["last_review"])
      [("reviews_per_month", Cell.num 0),
       ("host_identity_verified", Cell.str "unknown")]).header =
      (normalize_columns t).header := by
    rw [fill_header, parse_date_cols, colwiseApply_header, clean_currency_cols,
      colwiseApply_header]
  have huh1 : u.header = (normalize_columns t).header := by
    rw [remove_outliers_header ha1, remove_outliers_header hp1, ht4h]
  have hchain : ∀ (name : String) (f : Cell → Cell),
      ColFixed (fill_missing_values (parse_date_cols
        (clean_currency_cols (normalize_columns t)
          (["price", "service_fee"].filter (· ∈ (normalize_columns t).header)))
        ["last_review"])
        [("reviews_per_month", Cell.num 0),
         ("host_identity_verified", Cell.str "unknown")]) name f →
      ColFixed u name f := by
    intro name f h4
    exact colFixed_header_subset (remove_outliers_header ha1)
      (remove_outliers_subset ha1)
      (colFixed_header_subset (remove_outliers_header hp1)
        (remove_outliers_subset hp1) h4)
  have hn_u : normalize_columns u = u := by
    apply normalize_columns_id
    intro c hc
    rw [huh1] at hc
    obtain ⟨x, _, rfl⟩ := List.mem_map.mp hc
    exact normName_idem x
  have hccfix : ∀ name ∈ ["price", "service_fee"].filter
      (· ∈ (normalize_columns t).header), ColFixed u name cleanCurrencyCell := by
    intro name hname
    have hnd : (["price", "service_fee"].filter
        (· ∈ (normalize_columns t).header)).Nodup :=
      List.Nodup.filter _ (by decide)
    have h2 : ColFixed (clean_currency_cols (normalize_columns t)
        (["price", "service_fee"].filter (· ∈ (normalize_columns t).header)))
        name cleanCurrencyCell :=
      colFixed_colwise_establish cleanCurrencyCell_idem _ hnd hname
    have hname2 : name = "price" ∨ name = "service_fee" := by
      have := (List.mem_filter.mp hname).1
      simpa using this
    have h3 := colFixed_colwise_preserve (g := parseDateCell) ["last_review"]
      (by rcases hname2 with rfl | rfl <;> decide) h2
    have h4 := colFixed_fill_preserve
      [("reviews_per_month", Cell.num 0), ("host_identity_verified", Cell.str "unknown")]
      (by rcases hname2 with rfl | rfl <;> decide) h3
    exact hchain name _ h4
  have hcc_u : clean_currency_cols u (["price", "service_fee"].filter (· ∈ u.header)) = u := by
    apply colwiseApply_id
    intro c hc
    apply hccfix
    obtain ⟨hm2, hm3⟩ := List.mem_filter.mp hc
    rw [huh1] at hm3
    exact List.mem_filter.mpr ⟨hm2, hm3⟩
  have hdatefix : ColFixed u "last_review" parseDateCell := by
    have h3 : ColFixed (parse_date_cols
        (clean_currency_cols (normalize_columns t)
          (["price", "service_fee"].filter (· ∈ (normalize_columns t).header)))
        ["last_review"]) "last_review" parseDateCell :=
      colFixed_colwise_establish parseDateCell_idem ["last_review"] (by decide) (by decide)
    have h4 := colFixed_fill_preserve
      [("reviews_per_month", Cell.num 0), ("host_identity_verified", Cell.str "unknown")]
      (by decide) h3
    exact hchain _ _ h4
  have hpd_u : parse_date_cols u ["last_review"] = u := by
    apply colwiseApply_id
    intro c hc
    have hcl : c = "last_review" := by simpa using hc
    subst hcl
    exact hdatefix
  have hfill_u : fill_missing_values u
      [("reviews_per_month", Cell.num 0), ("host_identity_verified", Cell.str "unknown")] = u := by
    apply fill_id
    intro p hp
    obtain ⟨pn, pv⟩ := p
    have hp2 : pn = "reviews_per_month" ∧ pv = Cell.num 0 ∨
        pn = "host_identity_verified" ∧ pv = Cell.str "unknown" := by
      simpa [Prod.mk.injEq] using hp
    rcases hp2 with ⟨rfl, rfl⟩ | ⟨rfl, rfl⟩
    · exact hchain _ _ (colFixed_fill_establish (by simp)
        [("reviews_per_month", Cell.num 0), ("host_identity_verified", Cell.str "unknown")]
        (parse_date_cols (clean_currency_cols (normalize_columns t)
          (["price", "service_fee"].filter (· ∈ (normalize_columns t).header)))
          ["last_review"]) (by decide) (by decide))
    · exact hchain _ _ (colFixed_fill_establish (by simp)
        [("reviews_per_month", Cell.num 0), ("host_identity_verified", Cell.str "unknown")]
        (parse_date_cols (clean_currency_cols (normalize_columns t)
          (["price", "service_fee"].filter (· ∈ (normalize_columns t).header)))
          ["last_review"]) (by decide) (by decide))
  have hkeep_p := trimmed_rows_keep hp1 (remove_outliers_subset ha1)
    (remove_outliers_header ha1)
  have hkeep_a := trimmed_rows_keep ha1 (fun r hr => hr) rfl
  have htrim_u : hardBoundTrims u = Except.ok u :=
    hardBoundTrims_id (remove_outliers_id hkeep_p) (remove_outliers_id hkeep_a)
  have hsteps_u : cleanStepsPreSanity u = Except.ok u := by
    show hardBoundTrims (fill_missing_values (parse_date_cols
        (clean_currency_cols (normalize_columns u)
          (["price", "service_fee"].filter (· ∈ (normalize_columns u).header)))
        ["last_review"])
      [("reviews_per_month", Cell.num 0), ("host_identity_verified", Cell.str "unknown")]) =
      Except.ok u
    rw [hn_u, hcc_u, hpd_u, hfill_u]
    exact htrim_u
  refine ⟨hsteps_u, ?_⟩
  rw [mainPipeline]
  simp only [bind, Except.bind, hsteps_u, hsan]
  rfl

/-- C5 witness: the pipeline applied to the concrete table `T2c` produces
`U2c`, and a second run of the steps (and of the full pipeline) on `U2c`
returns `U2c` unchanged. -/
theorem c5_witness :
    mainPipeline T2c = Except.ok U2c ∧
    cleanStepsPreSanity U2c = Except.ok U2c ∧ mainPipeline U2c = Except.ok U2c :=
  ⟨by rfl, (c5_pipeline_idempotent T2c U2c (by rfl)).1,
   (c5_pipeline_idempotent T2c U2c (by rfl)).2⟩

end Airbnb
